/-
Verification of the PyThermal core pipeline (pythermal/routines.py):
state enumeration, Hamiltonian assembly, diagonalization, relabelling and
reduced density matrices.  Each Python routine is shallowly embedded as an
executable Lean definition; machine integers are modelled as ℤ / ℕ and the
complex floating-point arithmetic of the density-matrix stage as pairs of
rationals (exact complex arithmetic).
-/
import Mathlib

namespace PyThermal

/-! ### Combinatorial state enumeration -/

/-- `combos n l` models `itertools.combinations(l, n)`: all length-`n`
combinations of `l`, each keeping the relative order of `l`, enumerated in
the lexicographic order of positions that `itertools` uses. -/
def combos : ℕ → List ℤ → List (List ℤ)
  | 0, _ => [[]]
  | _ + 1, [] => []
  | n + 1, x :: xs => (combos n xs).map (fun c => x :: c) ++ combos (n + 1) xs

/-- `deleteIdxs l i idxs` models `numpy.delete`: drop from `l` every element
whose (0-based) index, counted from `i`, occurs in `idxs`. -/
def deleteIdxs : List ℤ → ℕ → List ℕ → List ℤ
  | [], _, _ => []
  | x :: xs, i, idxs =>
    if i ∈ idxs then deleteIdxs xs (i + 1) idxs
    else x :: deleteIdxs xs (i + 1) idxs

/-- Embedding of `position_states(lat, nop, del_pos)`: optionally strike the
0-based indices `p - 1` for each 1-based position `p` of `del_pos` from the
lattice, then enumerate all `nop`-combinations; returns the state list and
its length. -/
def position_states (lat : List ℤ) (nop : ℕ) (del_pos : Option (List ℕ)) :
    List (List ℤ) × ℕ :=
  match del_pos with
  | none =>
    let ps := combos nop lat
    (ps, ps.length)
  | some dp =>
    let lat_del := deleteIdxs lat 0 (dp.map (fun p => p - 1))
    let ps := combos nop lat_del
    (ps, ps.length)

/-! ### Hamiltonian entry (`_hamiltonian` inner computation) -/

/-- The value written to `ham[j, k]` by `_hamiltonian` for the pair of
position states `sj`, `sk`: the common part `c` is the sub-list of `sj`
whose labels also occur in `sk` (for duplicate-free states this carries the
same sum and size as `numpy.intersect1d`), and the branch structure follows
the source line by line.  Integer `%` is Python's (euclidean) remainder. -/
def hamEntry (ndims nop : ℕ) (sj sk : List ℤ) : ℤ :=
  let c := sj.filter (fun a => a ∈ sk)
  let c_sum := c.sum
  let c_size := c.length
  let j_sum := sj.sum
  let k_sum := sk.sum
  if (c_size : ℤ) = (nop : ℤ) - 1 then
    if |j_sum - k_sum| = (ndims : ℤ) then 1
    else if k_sum - j_sum = 1 ∧ ¬ (j_sum - c_sum) % (ndims : ℤ) = 0 then 1
    else if j_sum - k_sum = 1 ∧ ¬ (j_sum - c_sum) % (ndims : ℤ) = 1 then 1
    else 0
  else 0

/-! ### Task distribution and parallel assembly -/

/-- Embedding of `distribute(n_items, n_processes, i)`. -/
def distribute (n_items n_processes i : ℕ) : ℕ × ℕ :=
  let items_per_process := n_items / n_processes
  let start := i * items_per_process
  if i = n_processes - 1 then (start, n_items)
  else (start, items_per_process * (i + 1))

/-- One write of the inner `for k` loop: set cell `(j, k)`. -/
def writeCell (ps : List (List ℤ)) (ndims nop : ℕ) (M : ℕ → ℕ → ℤ)
    (j k : ℕ) : ℕ → ℕ → ℤ :=
  fun j' k' =>
    if j' = j ∧ k' = k then hamEntry ndims nop (ps.getD j []) (ps.getD k [])
    else M j' k'

/-- The inner `for k in range(nos)` loop of `_hamiltonian` for row `j`. -/
def writeRow (ps : List (List ℤ)) (ndims nop nos : ℕ) (M : ℕ → ℕ → ℤ)
    (j : ℕ) : ℕ → ℕ → ℤ :=
  (List.range nos).foldl (fun M' k => writeCell ps ndims nop M' j k) M

/-- The outer `for j in range(start, stop)` loop of `_hamiltonian`, run for
an explicit list of row indices, starting from the all-zero shared array. -/
def hamRows (ps : List (List ℤ)) (ndims nop nos : ℕ) (rows : List ℕ) :
    ℕ → ℕ → ℤ :=
  rows.foldl (writeRow ps ndims nop nos) (fun _ _ => 0)

/-- Embedding of `hamiltonian_parallel(lattice, ndims, nop)` with an explicit
process count: each process `i` handles the row range `distribute nos p i`,
and all processes write into one shared matrix. -/
def hamiltonian_parallel (lattice : List ℤ) (ndims nop n_processes : ℕ) :
    ℕ → ℕ → ℤ :=
  let ps := combos nop lattice
  let nos := ps.length
  let rows := (List.range n_processes).flatMap
    (fun i =>
      let r := distribute nos n_processes i
      List.range' r.1 (r.2 - r.1))
  hamRows ps ndims nop nos rows

/-! ### Binomial helpers (`ncr`, `sum_ncr`) -/

/-- Embedding of `ncr(n, r) = n! // (r! * (n-r)!)` (integer division,
truncated subtraction mirrors the only defined uses). -/
def ncr (n r : ℕ) : ℕ :=
  n.factorial / (r.factorial * (n - r).factorial)

/-- Embedding of `sum_ncr(n, k) = Σ_{r < k} ncr n r`. -/
def sum_ncr (n k : ℕ) : ℕ :=
  ((List.range k).map (fun r => ncr n r)).sum

theorem ncr_eq_choose {n r : ℕ} (h : r ≤ n) : ncr n r = Nat.choose n r :=
  (Nat.choose_eq_factorial_div_factorial h).symm

theorem sum_ncr_succ (n k : ℕ) :
    sum_ncr n (k + 1) = sum_ncr n k + ncr n k := by
  simp [sum_ncr, List.range_succ]

theorem sum_ncr_mono (n : ℕ) {k₁ k₂ : ℕ} (h : k₁ ≤ k₂) :
    sum_ncr n k₁ ≤ sum_ncr n k₂ := by
  induction k₂ with
  | zero => simp [Nat.le_zero.mp h]
  | succ m ih =>
    rcases Nat.lt_or_ge k₁ (m + 1) with h' | h'
    · exact (ih (Nat.lt_succ_iff.mp h')).trans (by rw [sum_ncr_succ]; omega)
    · have : k₁ = m + 1 := le_antisymm h h'
      simp [this]

/-! ### Structural facts about `combos` -/

theorem combos_mem : ∀ {n : ℕ} {l c : List ℤ}, c ∈ combos n l →
    c.Sublist l ∧ c.length = n
  | 0, l, c, h => by
    simp only [combos, List.mem_singleton] at h
    subst h; exact ⟨List.nil_sublist l, rfl⟩
  | _ + 1, [], c, h => by simp [combos] at h
  | n + 1, x :: xs, c, h => by
    simp only [combos, List.mem_append, List.mem_map] at h
    rcases h with ⟨c', hc', rfl⟩ | h
    · obtain ⟨hs, hl⟩ := combos_mem hc'
      exact ⟨hs.cons₂ x, by simp [hl]⟩
    · obtain ⟨hs, hl⟩ := combos_mem h
      exact ⟨hs.cons x, hl⟩

theorem length_combos : ∀ (n : ℕ) (l : List ℤ),
    (combos n l).length = Nat.choose l.length n
  | 0, l => by simp [combos]
  | n + 1, [] => by simp [combos]
  | n + 1, x :: xs => by
    simp [combos, length_combos n xs, length_combos (n + 1) xs,
      Nat.choose_succ_succ, Nat.add_comm]

theorem combos_nodup : ∀ (n : ℕ) {l : List ℤ}, l.Nodup →
    (combos n l).Nodup
  | 0, l, _ => by simp [combos]
  | _ + 1, [], _ => by simp [combos]
  | n + 1, x :: xs, h => by
    have hx : x ∉ xs := (List.nodup_cons.mp h).1
    have hxs : xs.Nodup := (List.nodup_cons.mp h).2
    simp only [combos]
    refine List.Nodup.append ?_ (combos_nodup (n + 1) hxs) ?_
    · exact (combos_nodup n hxs).map fun a b hab => by
        simpa using hab
    · intro c hc hc'
      simp only [List.mem_map] at hc
      obtain ⟨c', _, rfl⟩ := hc
      exact hx ((combos_mem hc').1.subset (by simp))

/-! ### Claim C1: characterization of a Hamiltonian entry -/

theorem filter_inter_toFinset (sj sk : List ℤ) :
    (sj.filter (fun a => a ∈ sk)).toFinset = sj.toFinset ∩ sk.toFinset := by
  ext a
  simp [List.mem_filter]

theorem filter_inter_length {sj : List ℤ} (sk : List ℤ) (hj : sj.Nodup) :
    (sj.toFinset ∩ sk.toFinset).card = (sj.filter (fun a => a ∈ sk)).length := by
  rw [← filter_inter_toFinset sj sk, List.toFinset_card_of_nodup (hj.filter _)]

theorem filter_inter_sum {sj : List ℤ} (sk : List ℤ) (hj : sj.Nodup) :
    (sj.toFinset ∩ sk.toFinset).sum id = (sj.filter (fun a => a ∈ sk)).sum := by
  rw [← filter_inter_toFinset sj sk, List.sum_toFinset _ (hj.filter _)]
  simp

/-- C1: the assembled Hamiltonian entry for states `sj`, `sk` is `1` exactly
when the states share `nop - 1` site labels and either (a) their label sums
differ in absolute value by `ndims` (vertical hop), or (b) their label sums
differ by exactly `1` and the modulo-`ndims` test on `sj.sum` minus the
common-label sum excludes the row-boundary wrap for that hop direction; in
every other case the entry is `0`. -/
theorem C1_hamiltonian_entry (ndims nop : ℕ) (sj sk : List ℤ)
    (hj : sj.Nodup) :
    (hamEntry ndims nop sj sk = 1 ↔
      (((sj.toFinset ∩ sk.toFinset).card : ℤ) = (nop : ℤ) - 1 ∧
        (|sj.sum - sk.sum| = (ndims : ℤ) ∨
          (sk.sum - sj.sum = 1 ∧
            ¬ (sj.sum - (sj.toFinset ∩ sk.toFinset).sum id) % (ndims : ℤ) = 0) ∨
          (sj.sum - sk.sum = 1 ∧
            ¬ (sj.sum - (sj.toFinset ∩ sk.toFinset).sum id) % (ndims : ℤ) = 1)))) ∧
    (hamEntry ndims nop sj sk = 0 ↔
      ¬ (((sj.toFinset ∩ sk.toFinset).card : ℤ) = (nop : ℤ) - 1 ∧
        (|sj.sum - sk.sum| = (ndims : ℤ) ∨
          (sk.sum - sj.sum = 1 ∧
            ¬ (sj.sum - (sj.toFinset ∩ sk.toFinset).sum id) % (ndims : ℤ) = 0) ∨
          (sj.sum - sk.sum = 1 ∧
            ¬ (sj.sum - (sj.toFinset ∩ sk.toFinset).sum id) % (ndims : ℤ) = 1)))) := by
  rw [filter_inter_length sk hj, filter_inter_sum sk hj]
  simp only [hamEntry]
  split_ifs with h1 h2 h3 h4 <;>
    refine ⟨⟨fun h => ?_, fun h => ?_⟩, ⟨fun h => ?_, fun h => ?_⟩⟩ <;>
      (simp_all; try tauto)

/-- Witness for C1 at a concrete pair of states on the 2×2 lattice. -/
theorem C1_hamiltonian_entry_witness :
    hamEntry 2 1 [1] [3] = 1 ↔
      ((([1] : List ℤ).toFinset ∩ ([3] : List ℤ).toFinset).card : ℤ) =
          (1 : ℤ) - 1 ∧
        (|([1] : List ℤ).sum - ([3] : List ℤ).sum| = (2 : ℤ) ∨
          (([3] : List ℤ).sum - ([1] : List ℤ).sum = 1 ∧
            ¬ (([1] : List ℤ).sum -
              (([1] : List ℤ).toFinset ∩ ([3] : List ℤ).toFinset).sum id) %
              (2 : ℤ) = 0) ∨
          (([1] : List ℤ).sum - ([3] : List ℤ).sum = 1 ∧
            ¬ (([1] : List ℤ).sum -
              (([1] : List ℤ).toFinset ∩ ([3] : List ℤ).toFinset).sum id) %
              (2 : ℤ) = 1)) :=
  (C1_hamiltonian_entry 2 1 [1] [3] (by simp)).1

/-! ### The assembled Hamiltonian matrix -/

theorem foldl_writeCell_apply (ps : List (List ℤ)) (ndims nop : ℕ)
    (ks : List ℕ) : ∀ (M : ℕ → ℕ → ℤ) (j j' k' : ℕ),
    (ks.foldl (fun M' k => writeCell ps ndims nop M' j k) M) j' k' =
      if j' = j ∧ k' ∈ ks then
        hamEntry ndims nop (ps.getD j' []) (ps.getD k' [])
      else M j' k' := by
  induction ks with
  | nil => intro M j j' k'; simp
  | cons k rest ih =>
    intro M j j' k'
    simp only [List.foldl_cons, ih, List.mem_cons]
    by_cases h1 : j' = j
    · subst h1
      by_cases h2 : k' ∈ rest
      · simp [h2]
      · by_cases h3 : k' = k
        · subst h3; simp [writeCell, h2]
        · simp [writeCell, h2, h3]
    · simp [writeCell, h1]

theorem writeRow_apply (ps : List (List ℤ)) (ndims nop nos : ℕ)
    (M : ℕ → ℕ → ℤ) (j j' k' : ℕ) :
    writeRow ps ndims nop nos M j j' k' =
      if j' = j ∧ k' < nos then
        hamEntry ndims nop (ps.getD j' []) (ps.getD k' [])
      else M j' k' := by
  simp [writeRow, foldl_writeCell_apply]

theorem foldl_writeRow_apply (ps : List (List ℤ)) (ndims nop nos : ℕ)
    (rows : List ℕ) : ∀ (M : ℕ → ℕ → ℤ) (j k : ℕ),
    (rows.foldl (writeRow ps ndims nop nos) M) j k =
      if j ∈ rows ∧ k < nos then
        hamEntry ndims nop (ps.getD j []) (ps.getD k [])
      else M j k := by
  induction rows with
  | nil => intro M j k; simp
  | cons r rest ih =>
    intro M j k
    simp only [List.foldl_cons, ih, List.mem_cons]
    by_cases h1 : j ∈ rest
    · simp only [h1, or_true, true_and]
      by_cases hk : k < nos
      · simp [hk]
      · simp [hk, writeRow_apply]
    · by_cases h2 : j = r
      · subst h2; simp [writeRow_apply, h1]
      · simp [writeRow_apply, h1, h2]

theorem hamRows_apply (ps : List (List ℤ)) (ndims nop nos : ℕ)
    (rows : List ℕ) (j k : ℕ) :
    hamRows ps ndims nop nos rows j k =
      if j ∈ rows ∧ k < nos then
        hamEntry ndims nop (ps.getD j []) (ps.getD k [])
      else 0 := by
  simp [hamRows, foldl_writeRow_apply]

theorem distribute_start_le_stop {n p : ℕ} (i : ℕ)
    (hi : i < p) : (distribute n p i).1 ≤ (distribute n p i).2 := by
  simp only [distribute]
  split_ifs with h
  · subst h
    calc (p - 1) * (n / p) ≤ p * (n / p) :=
        Nat.mul_le_mul_right _ (Nat.sub_le p 1)
    _ = n / p * p := Nat.mul_comm _ _
    _ ≤ n := Nat.div_mul_le_self n p
  · calc i * (n / p) ≤ (i + 1) * (n / p) :=
        Nat.mul_le_mul_right _ (Nat.le_succ i)
    _ = n / p * (i + 1) := Nat.mul_comm _ _

theorem distribute_stop_le {n p : ℕ} (i : ℕ) (hi : i < p) :
    (distribute n p i).2 ≤ n := by
  simp only [distribute]
  split_ifs with h
  · exact le_refl n
  · calc n / p * (i + 1) ≤ n / p * p := Nat.mul_le_mul_left _ hi
    _ ≤ n := Nat.div_mul_le_self n p

/-- Coverage of the row partition: `j` lies in some process's range iff
`j < n`. -/
theorem distribute_cover {n p : ℕ} (hp : 1 ≤ p) (j : ℕ) :
    (∃ i < p, (distribute n p i).1 ≤ j ∧ j < (distribute n p i).2) ↔
      j < n := by
  constructor
  · rintro ⟨i, hi, _, hj2⟩
    exact lt_of_lt_of_le hj2 (distribute_stop_le i hi)
  · intro hj
    by_cases hipp : n / p = 0
    · refine ⟨p - 1, by omega, ?_, ?_⟩
      · simp [distribute, hipp]
      · simp only [distribute, if_pos rfl]
        exact hj
    · have hipos : 0 < n / p := Nat.pos_of_ne_zero hipp
      by_cases hcase : j / (n / p) < p - 1
      · refine ⟨j / (n / p), by omega, ?_, ?_⟩
        · simp only [distribute, if_neg (Nat.ne_of_lt hcase)]
          exact Nat.div_mul_le_self j (n / p)
        · simp only [distribute, if_neg (Nat.ne_of_lt hcase)]
          have h1 : n / p * (j / (n / p)) + j % (n / p) = j :=
            Nat.div_add_mod j (n / p)
          have h2 : j % (n / p) < n / p := Nat.mod_lt _ hipos
          have h3 : n / p * (j / (n / p) + 1) =
              n / p * (j / (n / p)) + n / p := Nat.mul_succ _ _
          omega
      · refine ⟨p - 1, by omega, ?_, ?_⟩
        · simp only [distribute, if_pos rfl]
          calc (p - 1) * (n / p) ≤ j / (n / p) * (n / p) :=
            Nat.mul_le_mul_right _ (by omega)
          _ ≤ j := Nat.div_mul_le_self j (n / p)
        · simp only [distribute, if_pos rfl]
          exact hj

/-- Membership in the concatenated row ranges of all processes. -/
theorem mem_rows_iff {nos p : ℕ} (hp : 1 ≤ p) (j : ℕ) :
    (j ∈ (List.range p).flatMap
      (fun i =>
        let r := distribute nos p i
        List.range' r.1 (r.2 - r.1))) ↔ j < nos := by
  rw [← distribute_cover hp j]
  simp only [List.mem_flatMap, List.mem_range, List.mem_range'_1]
  constructor
  · rintro ⟨i, hi, h1, h2⟩
    exact ⟨i, hi, h1, by omega⟩
  · rintro ⟨i, hi, h1, h2⟩
    refine ⟨i, hi, h1, ?_⟩
    have := distribute_start_le_stop (n := nos) i hi
    omega

/-- Closed form of the assembled Hamiltonian, for any positive number of
worker processes. -/
theorem hamiltonian_parallel_apply (lattice : List ℤ) (ndims nop p : ℕ)
    (hp : 1 ≤ p) (j k : ℕ) :
    hamiltonian_parallel lattice ndims nop p j k =
      if j < (combos nop lattice).length ∧ k < (combos nop lattice).length
      then hamEntry ndims nop ((combos nop lattice).getD j [])
        ((combos nop lattice).getD k [])
      else 0 := by
  simp only [hamiltonian_parallel, hamRows_apply]
  simp only [mem_rows_iff hp]

/-! ### Claim C2: symmetry and zero diagonal -/

theorem emod_shift {x d : ℤ} (hd : 0 ≤ d) (hne : d ≠ 1) :
    x % d = 0 ↔ (x + 1) % d = 1 := by
  rcases eq_or_lt_of_le hd with h0 | hpos
  · simp only [← h0, Int.emod_zero]
    omega
  · have hd2 : 2 ≤ d := by omega
    have h1d : (1 : ℤ) % d = 1 := Int.emod_eq_of_lt (by omega) (by omega)
    have hx1 : (x + 1) % d = (x % d + 1) % d := by
      conv_lhs => rw [Int.add_emod, h1d]
    constructor
    · intro h
      rw [hx1, h]
      simpa using h1d
    · intro h
      by_contra hne0
      have hge : 0 ≤ x % d := Int.emod_nonneg x (by omega)
      have hlt : x % d < d := Int.emod_lt_of_pos x hpos
      rcases eq_or_lt_of_le (by omega : x % d + 1 ≤ d) with he | hl
      · rw [hx1, he, Int.emod_self] at h
        omega
      · rw [hx1, Int.emod_eq_of_lt (by omega) hl] at h
        omega

theorem hamEntry_symm (ndims nop : ℕ) {sj sk : List ℤ}
    (hj : sj.Nodup) (hk : sk.Nodup) :
    hamEntry ndims nop sj sk = hamEntry ndims nop sk sj := by
  have hlen : (sk.filter (fun a => a ∈ sj)).length =
      (sj.filter (fun a => a ∈ sk)).length := by
    rw [← filter_inter_length sj hk, ← filter_inter_length sk hj,
      Finset.inter_comm]
  have hsum : (sk.filter (fun a => a ∈ sj)).sum =
      (sj.filter (fun a => a ∈ sk)).sum := by
    rw [← filter_inter_sum sj hk, ← filter_inter_sum sk hj,
      Finset.inter_comm]
  simp only [hamEntry, hlen, hsum]
  set a := sj.sum with ha
  set b := sk.sum with hb
  set s := (sj.filter (fun x => x ∈ sk)).sum with hs
  set d := (ndims : ℤ) with hd
  have hd0 : 0 ≤ d := Int.natCast_nonneg ndims
  by_cases hc : ((sj.filter (fun x => x ∈ sk)).length : ℤ) = (nop : ℤ) - 1
  · simp only [if_pos hc]
    rw [abs_sub_comm b a]
    by_cases habs : |a - b| = d
    · simp [habs]
    · simp only [if_neg habs]
      by_cases hba : b - a = 1
      · have hd1 : d ≠ 1 := by
          intro h
          apply habs
          have hab1 : a - b = -1 := by omega
          rw [h, hab1]
          norm_num
        have hab : ¬ a - b = 1 := by omega
        have hmod : (a - s) % d = 0 ↔ (b - s) % d = 1 := by
          have hbs : b - s = (a - s) + 1 := by omega
          rw [hbs]
          exact emod_shift hd0 hd1
        by_cases hm : (a - s) % d = 0
        · simp [hba, hab, hm, hmod.mp hm]
        · have hm2 : ¬ (b - s) % d = 1 := fun h => hm (hmod.mpr h)
          simp [hba, hab, hm, hm2]
      · by_cases hab : a - b = 1
        · have hd1 : d ≠ 1 := by
            intro h
            apply habs
            rw [h, hab]
            norm_num
          have hmod : (b - s) % d = 0 ↔ (a - s) % d = 1 := by
            have has : a - s = (b - s) + 1 := by omega
            rw [has]
            exact emod_shift hd0 hd1
          by_cases hm : (b - s) % d = 0
          · simp [hba, hab, hm, hmod.mp hm]
          · have hm2 : ¬ (a - s) % d = 1 := fun h => hm (hmod.mpr h)
            simp [hba, hab, hm, hm2]
        · simp [hba, hab]
  · simp [hc]

theorem hamEntry_diag (ndims nop : ℕ) {s : List ℤ} (hlen : s.length = nop) :
    hamEntry ndims nop s s = 0 := by
  have hfil : s.filter (fun a => a ∈ s) = s :=
    List.filter_eq_self.mpr (by intro a ha; simpa using ha)
  simp only [hamEntry, hfil, hlen]
  rw [if_neg (by omega)]

/-- C2: for every duplicate-free lattice and any positive worker count, the
fully assembled Hamiltonian is symmetric, `H j k = H k j`, and every
diagonal entry `H j j` is `0`. -/
theorem C2_hamiltonian_symmetric (lattice : List ℤ) (ndims nop p : ℕ)
    (hlat : lattice.Nodup) (hp : 1 ≤ p) (j k : ℕ) :
    hamiltonian_parallel lattice ndims nop p j k =
      hamiltonian_parallel lattice ndims nop p k j ∧
    hamiltonian_parallel lattice ndims nop p j j = 0 := by
  have hnodup : ∀ {i : ℕ}, i < (combos nop lattice).length →
      ((combos nop lattice).getD i []).Nodup := by
    intro i hi
    rw [List.getD_eq_getElem _ _ hi]
    exact hlat.sublist (combos_mem (List.getElem_mem hi)).1
  have hlen : ∀ {i : ℕ}, i < (combos nop lattice).length →
      ((combos nop lattice).getD i []).length = nop := by
    intro i hi
    rw [List.getD_eq_getElem _ _ hi]
    exact (combos_mem (List.getElem_mem hi)).2
  constructor
  · rw [hamiltonian_parallel_apply lattice ndims nop p hp j k,
      hamiltonian_parallel_apply lattice ndims nop p hp k j]
    by_cases hj : j < (combos nop lattice).length
    · by_cases hk : k < (combos nop lattice).length
      · rw [if_pos ⟨hj, hk⟩, if_pos ⟨hk, hj⟩]
        exact hamEntry_symm ndims nop (hnodup hj) (hnodup hk)
      · rw [if_neg (by tauto), if_neg (by tauto)]
    · rw [if_neg (by tauto), if_neg (by tauto)]
  · rw [hamiltonian_parallel_apply lattice ndims nop p hp j j]
    by_cases hj : j < (combos nop lattice).length
    · rw [if_pos ⟨hj, hj⟩]
      exact hamEntry_diag ndims nop (hlen hj)
    · rw [if_neg (by tauto)]

/-- Witness for C2 on the 2×2 lattice with one particle. -/
theorem C2_hamiltonian_symmetric_witness :
    hamiltonian_parallel [1, 2, 3, 4] 2 1 2 0 1 =
      hamiltonian_parallel [1, 2, 3, 4] 2 1 2 1 0 ∧
    hamiltonian_parallel [1, 2, 3, 4] 2 1 2 0 0 = 0 :=
  C2_hamiltonian_symmetric [1, 2, 3, 4] 2 1 2 (by decide) (by omega) 0 1

/-- C7: the `(start, stop)` ranges produced by `distribute` begin at `0`,
are contiguous, ordered and disjoint, end exactly at `n` (the last range
absorbs the division remainder), and the Hamiltonian assembled with any
positive worker count equals the single-worker assembly: the partitioning
is not observable in the output matrix. -/
theorem C7_partition_independence (n p : ℕ) (lattice : List ℤ)
    (ndims nop : ℕ) (hp : 1 ≤ p) :
    ((distribute n p 0).1 = 0 ∧
      (distribute n p (p - 1)).2 = n ∧
      (∀ i, i + 1 < p →
        (distribute n p i).2 = (distribute n p (i + 1)).1) ∧
      (∀ i, i < p → (distribute n p i).1 ≤ (distribute n p i).2) ∧
      (∀ i₁ i₂, i₁ < i₂ → i₂ < p →
        (distribute n p i₁).2 ≤ (distribute n p i₂).1)) ∧
    hamiltonian_parallel lattice ndims nop p =
      hamiltonian_parallel lattice ndims nop 1 := by
  have hstart : ∀ i, (distribute n p i).1 = i * (n / p) := by
    intro i
    simp only [distribute]
    split_ifs <;> rfl
  refine ⟨⟨by rw [hstart, Nat.zero_mul], by simp [distribute], ?_, ?_, ?_⟩,
    ?_⟩
  · intro i hi
    rw [hstart]
    simp only [distribute, if_neg (by omega : ¬ i = p - 1)]
    exact Nat.mul_comm _ _
  · intro i hi
    exact distribute_start_le_stop i hi
  · intro i₁ i₂ h12 h2p
    have h1 : ¬ i₁ = p - 1 := by omega
    rw [hstart]
    simp only [distribute, if_neg h1]
    calc n / p * (i₁ + 1) ≤ n / p * i₂ := Nat.mul_le_mul_left _ (by omega)
    _ = i₂ * (n / p) := Nat.mul_comm _ _
  · funext j k
    rw [hamiltonian_parallel_apply lattice ndims nop p hp j k,
      hamiltonian_parallel_apply lattice ndims nop 1 (le_refl 1) j k]

/-- Witness for C7 with two workers on three states. -/
theorem C7_partition_independence_witness :
    hamiltonian_parallel [1, 2, 3, 4] 2 1 2 =
      hamiltonian_parallel [1, 2, 3, 4] 2 1 1 :=
  (C7_partition_independence 4 2 [1, 2, 3, 4] 2 1 (by omega)).2

/-! ### Claim C4: `position_states` with deletions -/

theorem deleteIdxs_sublist (idxs : List ℕ) :
    ∀ (l : List ℤ) (i : ℕ), (deleteIdxs l i idxs).Sublist l := by
  intro l
  induction l with
  | nil => intro i; simp [deleteIdxs]
  | cons x xs ih =>
    intro i
    simp only [deleteIdxs]
    split_ifs
    · exact (ih (i + 1)).cons x
    · exact (ih (i + 1)).cons₂ x

/-- `deleteIdxs` keeps exactly the entries whose index is outside `idxs`. -/
theorem deleteIdxs_eq_enum (idxs : List ℕ) :
    ∀ (l : List ℤ) (i : ℕ),
    deleteIdxs l i idxs =
      ((List.enumFrom i l).filter (fun q => ¬ q.1 ∈ idxs)).map Prod.snd := by
  intro l
  induction l with
  | nil => intro i; simp [deleteIdxs]
  | cons x xs ih =>
    intro i
    simp only [deleteIdxs, List.enumFrom, List.filter_cons]
    by_cases h : i ∈ idxs
    · simp [h, ih (i + 1)]
    · simp [h, ih (i + 1)]

theorem deleteIdxs_length (idxs : List ℕ) :
    ∀ (l : List ℤ) (i : ℕ),
    (deleteIdxs l i idxs).length =
      l.length - ((List.range' i l.length).filter (fun j => j ∈ idxs)).length
    := by
  intro l
  induction l with
  | nil => intro i; simp [deleteIdxs]
  | cons x xs ih =>
    intro i
    have hle : ((List.range' (i + 1) xs.length).filter
        (fun j => j ∈ idxs)).length ≤ xs.length := by
      calc ((List.range' (i + 1) xs.length).filter
          (fun j => j ∈ idxs)).length
          ≤ (List.range' (i + 1) xs.length).length :=
            List.length_filter_le _ _
      _ = xs.length := List.length_range' _ _ _
    by_cases h : i ∈ idxs
    · simp only [deleteIdxs, if_pos h, List.length_cons,
        List.range'_succ, List.filter_cons, ih (i + 1)]
      rw [if_pos (by simpa using h)]
      simp only [List.length_cons]
      omega
    · simp only [deleteIdxs, if_neg h, List.length_cons,
        List.range'_succ, List.filter_cons, ih (i + 1)]
      rw [if_neg (by simpa using h)]
      omega

/-- With distinct in-range indices, striking them removes exactly
`idxs.length` entries. -/
theorem deleteIdxs_length_of_nodup {idxs : List ℕ} {l : List ℤ}
    (hnd : idxs.Nodup) (hin : ∀ j ∈ idxs, j < l.length) :
    (deleteIdxs l 0 idxs).length = l.length - idxs.length := by
  rw [deleteIdxs_length idxs l 0, ← List.range_eq_range']
  congr 1
  have h1 : ((List.range l.length).filter (fun j => j ∈ idxs)).Nodup :=
    (List.nodup_range _).filter _
  have h2 : ((List.range l.length).filter
      (fun j => j ∈ idxs)).toFinset = idxs.toFinset := by
    ext j
    simp only [List.mem_toFinset, List.mem_filter, List.mem_range,
      decide_eq_true_eq]
    exact ⟨fun h => h.2, fun h => ⟨hin j h, h⟩⟩
  rw [← List.toFinset_card_of_nodup h1, h2,
    List.toFinset_card_of_nodup hnd]

/-- C4: on an ascending lattice with distinct in-range 1-based deletion
positions, `position_states` strikes exactly the 0-based indices
`position - 1` from the label array before generating combinations,
returns all `C(available_sites, nop)` states (pairwise distinct), each a
strictly increasing tuple of `nop` distinct labels drawn from the
non-deleted set, and returns that count as its second result. -/
theorem C4_position_states (lat : List ℤ) (nop : ℕ) (dp : List ℕ)
    (hsort : lat.Chain' (· < ·))
    (hdp : ∀ q ∈ dp, 1 ≤ q ∧ q ≤ lat.length) (hnd : dp.Nodup) :
    (position_states lat nop (some dp)).1 =
      combos nop (deleteIdxs lat 0 (dp.map (fun q => q - 1))) ∧
    deleteIdxs lat 0 (dp.map (fun q => q - 1)) =
      ((List.enumFrom 0 lat).filter
        (fun q => ¬ q.1 ∈ dp.map (fun r => r - 1))).map Prod.snd ∧
    (position_states lat nop (some dp)).2 =
      Nat.choose (lat.length - dp.length) nop ∧
    (position_states lat nop (some dp)).2 =
      (position_states lat nop (some dp)).1.length ∧
    (position_states lat nop (some dp)).1.Nodup ∧
    (∀ s ∈ (position_states lat nop (some dp)).1,
      s.Chain' (· < ·) ∧ s.length = nop ∧
        ∀ x ∈ s, x ∈ deleteIdxs lat 0 (dp.map (fun q => q - 1))) := by
  have hpl : lat.Pairwise (· < ·) := List.chain'_iff_pairwise.mp hsort
  have hidx_nd : (dp.map (fun q => q - 1)).Nodup := by
    refine hnd.map_on ?_
    intro x hx y hy hxy
    have := (hdp x hx).1
    have := (hdp y hy).1
    omega
  have hidx_in : ∀ j ∈ dp.map (fun q => q - 1), j < lat.length := by
    intro j hj
    simp only [List.mem_map] at hj
    obtain ⟨q, hq, rfl⟩ := hj
    have := (hdp q hq).1
    have := (hdp q hq).2
    omega
  have hdel_pw : (deleteIdxs lat 0 (dp.map (fun q => q - 1))).Pairwise
      (· < ·) := hpl.sublist (deleteIdxs_sublist _ lat 0)
  have hlen : (deleteIdxs lat 0 (dp.map (fun q => q - 1))).length =
      lat.length - dp.length := by
    rw [deleteIdxs_length_of_nodup hidx_nd hidx_in, List.length_map]
  refine ⟨rfl, deleteIdxs_eq_enum _ lat 0, ?_, rfl, ?_, ?_⟩
  · show (combos nop _).length = _
    rw [length_combos, hlen]
  · exact combos_nodup nop (hdel_pw.imp ne_of_lt)
  · intro s hs
    obtain ⟨hsub, hslen⟩ := combos_mem hs
    exact ⟨(hdel_pw.sublist hsub).chain', hslen,
      fun x hx => hsub.subset hx⟩

/-- Witness for C4: 2×2 lattice, one deleted site, one particle. -/
theorem C4_position_states_witness :
    (position_states [1, 2, 3, 4] 1 (some [2])).2 = Nat.choose 3 1 :=
  (C4_position_states [1, 2, 3, 4] 1 [2]
    (by norm_num [List.Chain', List.chain_cons])
    (by decide) (by decide)).2.2.1

/-! ### The `relabel` routine -/

/-- The mutable state of `relabel`: the two counter rows `x[0]`, `x[1]`
(modelled as total functions on the class index `n`) and the list `dump` of
A-patterns already seen. -/
structure RState where
  cA : ℕ → ℕ
  cB : ℕ → ℕ
  dump : List (List ℤ)

/-- `comm = [k for k in state if k in lat_a]`. -/
def commOf (lat_a : List ℤ) (s : List ℤ) : List ℤ :=
  s.filter (fun k => k ∈ lat_a)

/-- One iteration of the `for state in e_states` loop of `relabel`:
increment `x[1][n]`, record a fresh A-pattern in `x[0][n]`/`dump`, emit
`[x[0][n], n, x[1][n]]`, and reset `x[1][n]` to `0` when it has reached
`ncr(nol_b, nop - n)`. -/
def relabelStep (nop nol_b : ℕ) (lat_a : List ℤ) (st : RState)
    (s : List ℤ) : RState × (ℕ × ℕ × ℕ) :=
  let comm := commOf lat_a s
  let n := comm.length
  let b := st.cB n + 1
  let a := if comm ∈ st.dump then st.cA n else st.cA n + 1
  let dump' := if comm ∈ st.dump then st.dump else st.dump ++ [comm]
  let cA' := fun m => if m = n then a else st.cA m
  let cB' := fun m =>
    if m = n then (if b = ncr nol_b (nop - n) then 0 else b) else st.cB m
  (⟨cA', cB', dump'⟩, (a, n, b))

def relabelAux (nop nol_b : ℕ) (lat_a : List ℤ) :
    RState → List (List ℤ) → List (ℕ × ℕ × ℕ)
  | _, [] => []
  | st, s :: rest =>
    let p := relabelStep nop nol_b lat_a st s
    p.2 :: relabelAux nop nol_b lat_a p.1 rest

/-- Embedding of `relabel(e_states, nop, nol_b, lat_a)`: fold the loop over
the state list starting from zeroed counters and an empty `dump`. -/
def relabel (e_states : List (List ℤ)) (nop nol_b : ℕ)
    (lat_a : List ℤ) : List (ℕ × ℕ × ℕ) :=
  relabelAux nop nol_b lat_a ⟨fun _ => 0, fun _ => 0, []⟩ e_states

/-- The distinct A-patterns of a history of states, in order of first
appearance (the contents of `dump` after processing the history). -/
def seenComms (lat_a : List ℤ) (hist : List (List ℤ)) : List (List ℤ) :=
  hist.foldl
    (fun d s => if commOf lat_a s ∈ d then d else d ++ [commOf lat_a s]) []

/-- Number of states of a history whose A-pattern has size `n`. -/
def countClass (lat_a : List ℤ) (n : ℕ) (hist : List (List ℤ)) : ℕ :=
  (hist.filter (fun t => (commOf lat_a t).length = n)).length

/-- Closed form of the `relabel` output: the `i`-th record is the number
of distinct A-patterns of the state's class seen in the first `i + 1`
states, the class size `n`, and the cycling B-counter
`(#earlier states of the class) mod ncr(nol_b, nop - n) + 1`. -/
def relabelSpec (nop nol_b : ℕ) (lat_a : List ℤ)
    (e_states : List (List ℤ)) : List (ℕ × ℕ × ℕ) :=
  (List.range e_states.length).map (fun i =>
    let s := e_states.getD i []
    let n := (commOf lat_a s).length
    (((seenComms lat_a (e_states.take (i + 1))).filter
        (fun c => c.length = n)).length,
      n,
      countClass lat_a n (e_states.take i) % ncr nol_b (nop - n) + 1))

theorem seenComms_concat (lat_a : List ℤ) (h : List (List ℤ))
    (s : List ℤ) :
    seenComms lat_a (h ++ [s]) =
      if commOf lat_a s ∈ seenComms lat_a h then seenComms lat_a h
      else seenComms lat_a h ++ [commOf lat_a s] := by
  simp [seenComms, List.foldl_append]

theorem countClass_concat (lat_a : List ℤ) (n : ℕ) (h : List (List ℤ))
    (s : List ℤ) :
    countClass lat_a n (h ++ [s]) =
      countClass lat_a n h +
        (if (commOf lat_a s).length = n then 1 else 0) := by
  simp only [countClass, List.filter_append, List.length_append]
  by_cases hc : (commOf lat_a s).length = n
  · simp [hc]
  · simp [hc]

/-- One increment of the cycling counter `x[1][n]`, with the reset at the
bound, advances the value `count % bound` to `(count + 1) % bound`. -/
theorem cycle_step (k bound : ℕ) :
    (if k % bound + 1 = bound then 0 else k % bound + 1) =
      (k + 1) % bound := by
  rcases Nat.eq_zero_or_pos bound with h0 | hpos
  · subst h0
    simp
  · by_cases he : k % bound + 1 = bound
    · rw [if_pos he, ← Nat.mod_add_mod, he, Nat.mod_self]
    · rw [if_neg he, ← Nat.mod_add_mod]
      have h1 : k % bound < bound := Nat.mod_lt _ hpos
      exact (Nat.mod_eq_of_lt (by omega)).symm

theorem relabelAux_spec (nop nol_b : ℕ) (lat_a : List ℤ) :
    ∀ (rest processed : List (List ℤ)) (st : RState),
    st.dump = seenComms lat_a processed →
    (∀ n, st.cA n = ((seenComms lat_a processed).filter
      (fun c => c.length = n)).length) →
    (∀ n, st.cB n =
      countClass lat_a n processed % ncr nol_b (nop - n)) →
    relabelAux nop nol_b lat_a st rest =
      (List.range rest.length).map (fun k =>
        let s := rest.getD k []
        let n := (commOf lat_a s).length
        (((seenComms lat_a (processed ++ rest.take (k + 1))).filter
            (fun c => c.length = n)).length,
          n,
          countClass lat_a n (processed ++ rest.take k) %
            ncr nol_b (nop - n) + 1)) := by
  intro rest
  induction rest with
  | nil => intro processed st _ _ _; simp [relabelAux]
  | cons s rest' ih =>
    intro processed st hdump hcA hcB
    have hseen : seenComms lat_a (processed ++ [s]) =
        if commOf lat_a s ∈ st.dump then st.dump
        else st.dump ++ [commOf lat_a s] := by
      rw [seenComms_concat, hdump]
    have hcA_next : ∀ m,
        (if m = (commOf lat_a s).length then
          (if commOf lat_a s ∈ st.dump then st.cA (commOf lat_a s).length
            else st.cA (commOf lat_a s).length + 1)
          else st.cA m) =
        ((seenComms lat_a (processed ++ [s])).filter
          (fun d => d.length = m)).length := by
      intro m
      rw [hseen]
      by_cases hmem : commOf lat_a s ∈ st.dump
      · simp only [if_pos hmem]
        by_cases hm : m = (commOf lat_a s).length
        · rw [if_pos hm, hcA, hdump, hm]
        · rw [if_neg hm, hcA, hdump]
      · simp only [if_neg hmem]
        by_cases hm : m = (commOf lat_a s).length
        · rw [if_pos hm, hcA, hdump, List.filter_append, hm]
          simp
        · rw [if_neg hm, hcA, hdump, List.filter_append]
          have hne : ¬ (commOf lat_a s).length = m := fun h => hm h.symm
          have hnil : List.filter (fun d => decide (d.length = m))
              [commOf lat_a s] = [] := by
            simp [hne]
          rw [hnil]
          simp
    have hcB_next : ∀ m,
        (if m = (commOf lat_a s).length then
          (if st.cB (commOf lat_a s).length + 1 =
              ncr nol_b (nop - (commOf lat_a s).length) then 0
            else st.cB (commOf lat_a s).length + 1)
          else st.cB m) =
        countClass lat_a m (processed ++ [s]) % ncr nol_b (nop - m) := by
      intro m
      rw [countClass_concat]
      by_cases hm : m = (commOf lat_a s).length
      · have hone : (if (commOf lat_a s).length = m then 1 else 0) = 1 :=
          if_pos hm.symm
        rw [if_pos hm, hone, hcB, hm]
        exact cycle_step _ _
      · have hzero : (if (commOf lat_a s).length = m then 1 else 0) = 0 :=
          if_neg (fun h => hm h.symm)
        rw [if_neg hm, hzero, hcB, Nat.add_zero]
    have hunfold : relabelAux nop nol_b lat_a st (s :: rest') =
        (relabelStep nop nol_b lat_a st s).2 ::
          relabelAux nop nol_b lat_a (relabelStep nop nol_b lat_a st s).1
            rest' := rfl
    have hstep : relabelStep nop nol_b lat_a st s =
        (⟨fun m => if m = (commOf lat_a s).length then
            (if commOf lat_a s ∈ st.dump then
              st.cA (commOf lat_a s).length
              else st.cA (commOf lat_a s).length + 1) else st.cA m,
          fun m => if m = (commOf lat_a s).length then
            (if st.cB (commOf lat_a s).length + 1 =
                ncr nol_b (nop - (commOf lat_a s).length) then 0
              else st.cB (commOf lat_a s).length + 1) else st.cB m,
          if commOf lat_a s ∈ st.dump then st.dump
          else st.dump ++ [commOf lat_a s]⟩,
        ((if commOf lat_a s ∈ st.dump then st.cA (commOf lat_a s).length
            else st.cA (commOf lat_a s).length + 1),
          (commOf lat_a s).length,
          st.cB (commOf lat_a s).length + 1)) := rfl
    rw [hunfold, hstep,
      ih (processed ++ [s]) _ hseen.symm hcA_next hcB_next]
    rw [List.length_cons, List.range_succ_eq_map, List.map_cons,
      List.map_map]
    refine congrArg₂ _ ?_ ?_
    · simp only [List.getD_cons_zero, List.take_zero, List.take_succ_cons,
        List.append_nil]
      refine congrArg₂ _ ?_ (congrArg₂ _ rfl ?_)
      · have h := hcA_next (commOf lat_a s).length
        rw [if_pos rfl] at h
        exact h
      · rw [hcB]
    · refine List.map_congr_left ?_
      intro k _
      simp only [Function.comp_apply, List.getD_cons_succ,
        List.take_succ_cons]
      have h1 : processed ++ s :: List.take (k + 1) rest' =
          (processed ++ [s]) ++ List.take (k + 1) rest' := by simp
      have h2 : processed ++ s :: List.take k rest' =
          (processed ++ [s]) ++ List.take k rest' := by simp
      rw [h1, h2]

/-- The `relabel` output coincides with its closed form. -/
theorem relabel_eq (e_states : List (List ℤ)) (nop nol_b : ℕ)
    (lat_a : List ℤ) :
    relabel e_states nop nol_b lat_a =
      relabelSpec nop nol_b lat_a e_states := by
  rw [relabel, relabelAux_spec nop nol_b lat_a e_states [] _ rfl
    (fun n => rfl) (fun n => (Nat.zero_mod _).symm)]
  simp [relabelSpec]

/-! ### Claim C5: counter invariants of `relabel` -/

theorem seenComms_foldl_grow (lat_a : List ℤ) :
    ∀ (l : List (List ℤ)) (d : List (List ℤ)),
    ∃ d', l.foldl (fun d s => if commOf lat_a s ∈ d then d
      else d ++ [commOf lat_a s]) d = d ++ d' := by
  intro l
  induction l with
  | nil => intro d; exact ⟨[], by simp⟩
  | cons s l ih =>
    intro d
    simp only [List.foldl_cons]
    by_cases h : commOf lat_a s ∈ d
    · rw [if_pos h]
      exact ih d
    · rw [if_neg h]
      obtain ⟨d', hd'⟩ := ih (d ++ [commOf lat_a s])
      exact ⟨[commOf lat_a s] ++ d', by rw [hd', List.append_assoc]⟩

theorem seenComms_prefix (lat_a : List ℤ) (l₁ l₂ : List (List ℤ)) :
    ∃ d, seenComms lat_a (l₁ ++ l₂) = seenComms lat_a l₁ ++ d := by
  simp only [seenComms, List.foldl_append]
  exact seenComms_foldl_grow lat_a l₂ _

theorem mem_seenComms_foldl (lat_a : List ℤ) :
    ∀ (l : List (List ℤ)) (d : List (List ℤ)) (c : List ℤ),
    (c ∈ l.foldl (fun d s => if commOf lat_a s ∈ d then d
      else d ++ [commOf lat_a s]) d ↔
      c ∈ d ∨ ∃ s ∈ l, commOf lat_a s = c) := by
  intro l
  induction l with
  | nil => intro d c; simp
  | cons s l ih =>
    intro d c
    simp only [List.foldl_cons]
    by_cases h : commOf lat_a s ∈ d
    · rw [if_pos h, ih]
      constructor
      · rintro (hc | hc)
        · exact Or.inl hc
        · obtain ⟨t, ht, hct⟩ := hc
          exact Or.inr ⟨t, List.mem_cons_of_mem _ ht, hct⟩
      · rintro (hc | hc)
        · exact Or.inl hc
        · obtain ⟨t, ht, hct⟩ := hc
          rcases List.mem_cons.mp ht with rfl | ht'
          · exact Or.inl (hct ▸ h)
          · exact Or.inr ⟨t, ht', hct⟩
    · rw [if_neg h, ih]
      constructor
      · rintro (hc | hc)
        · rcases List.mem_append.mp hc with h1 | h1
          · exact Or.inl h1
          · exact Or.inr ⟨s, List.mem_cons_self _ _,
              (List.mem_singleton.mp h1).symm⟩
        · obtain ⟨t, ht, hct⟩ := hc
          exact Or.inr ⟨t, List.mem_cons_of_mem _ ht, hct⟩
      · rintro (hc | hc)
        · exact Or.inl (List.mem_append.mpr (Or.inl hc))
        · obtain ⟨t, ht, hct⟩ := hc
          rcases List.mem_cons.mp ht with rfl | ht'
          · exact Or.inl (List.mem_append.mpr
              (Or.inr (List.mem_singleton.mpr hct.symm)))
          · exact Or.inr ⟨t, ht', hct⟩

theorem mem_seenComms (lat_a : List ℤ) (hist : List (List ℤ))
    (c : List ℤ) :
    c ∈ seenComms lat_a hist ↔ ∃ s ∈ hist, commOf lat_a s = c := by
  rw [seenComms, mem_seenComms_foldl]
  simp

/-- C5: the `i`-th record emitted by `relabel` carries the A-class size
`n` of the `i`-th state; its `a_index` equals the number of distinct
A-patterns of that class seen in the first `i + 1` states (hence lies in
`1..`(number of distinct A-patterns of that class)); and its `b_index`
equals `(#earlier states of the class) mod ncr(nol_b, nop - n) + 1`, which
cycles through `1..ncr(nol_b, nop - n)`, restarting exactly after the
count reaches `ncr(nol_b, nop - n)`. -/
theorem C5_relabel_counters (e_states : List (List ℤ)) (nop nol_b : ℕ)
    (lat_a : List ℤ)
    (hb : ∀ s ∈ e_states, 1 ≤ ncr nol_b (nop - (commOf lat_a s).length))
    (i : ℕ) (hi : i < e_states.length) :
    ∀ r, r = (relabel e_states nop nol_b lat_a).getD i (0, 0, 0) →
    r.2.1 = (commOf lat_a (e_states.getD i [])).length ∧
    r.1 = ((seenComms lat_a (e_states.take (i + 1))).filter
      (fun c => c.length = r.2.1)).length ∧
    1 ≤ r.1 ∧
    r.1 ≤ ((seenComms lat_a e_states).filter
      (fun c => c.length = r.2.1)).length ∧
    r.2.2 = countClass lat_a r.2.1 (e_states.take i) %
      ncr nol_b (nop - r.2.1) + 1 ∧
    1 ≤ r.2.2 ∧ r.2.2 ≤ ncr nol_b (nop - r.2.1) := by
  intro r hr
  have hlen : (relabelSpec nop nol_b lat_a e_states).length =
      e_states.length := by
    simp [relabelSpec]
  have hilen : i < (relabelSpec nop nol_b lat_a e_states).length := by omega
  have hr' : r = (relabelSpec nop nol_b lat_a e_states).get ⟨i, hilen⟩ := by
    rw [hr, relabel_eq]
    exact List.getD_eq_getElem _ _ hilen
  have hspec : (relabelSpec nop nol_b lat_a e_states).get ⟨i, hilen⟩ =
      (((seenComms lat_a (e_states.take (i + 1))).filter
          (fun c => c.length =
            (commOf lat_a (e_states.getD i [])).length)).length,
        (commOf lat_a (e_states.getD i [])).length,
        countClass lat_a (commOf lat_a (e_states.getD i [])).length
            (e_states.take i) %
          ncr nol_b
            (nop - (commOf lat_a (e_states.getD i [])).length) + 1) := by
    simp only [List.get_eq_getElem, relabelSpec, List.getElem_map,
      List.getElem_range]
  rw [hr', hspec]
  have hsmem : e_states.getD i [] ∈ e_states.take (i + 1) := by
    have h1 : i < (e_states.take (i + 1)).length := by
      simp only [List.length_take]
      omega
    have h2 : (e_states.take (i + 1)).getD i [] = e_states.getD i [] := by
      rw [List.getD_eq_getElem _ _ h1, List.getD_eq_getElem _ _ hi]
      exact List.getElem_take e_states
    rw [← h2, List.getD_eq_getElem _ _ h1]
    exact List.getElem_mem h1
  have hmemseen : commOf lat_a (e_states.getD i []) ∈
      seenComms lat_a (e_states.take (i + 1)) :=
    (mem_seenComms _ _ _).mpr ⟨_, hsmem, rfl⟩
  have hmemfil : commOf lat_a (e_states.getD i []) ∈
      (seenComms lat_a (e_states.take (i + 1))).filter
        (fun c => c.length = (commOf lat_a (e_states.getD i [])).length) :=
    List.mem_filter.mpr ⟨hmemseen, by simp⟩
  have hone : 1 ≤ ((seenComms lat_a (e_states.take (i + 1))).filter
      (fun c => c.length =
        (commOf lat_a (e_states.getD i [])).length)).length :=
    List.length_pos.mpr (List.ne_nil_of_mem hmemfil)
  have hglobal : ((seenComms lat_a (e_states.take (i + 1))).filter
      (fun c => c.length =
        (commOf lat_a (e_states.getD i [])).length)).length ≤
      ((seenComms lat_a e_states).filter
        (fun c => c.length =
          (commOf lat_a (e_states.getD i [])).length)).length := by
    obtain ⟨d, hd⟩ := seenComms_prefix lat_a (e_states.take (i + 1))
      (e_states.drop (i + 1))
    rw [List.take_append_drop] at hd
    rw [hd, List.filter_append, List.length_append]
    exact Nat.le_add_right _ _
  have hboundpos : 1 ≤ ncr nol_b
      (nop - (commOf lat_a (e_states.getD i [])).length) := by
    refine hb _ ?_
    rw [List.getD_eq_getElem _ _ hi]
    exact List.getElem_mem hi
  refine ⟨rfl, rfl, hone, hglobal, rfl, Nat.le_add_left _ _, ?_⟩
  show countClass lat_a (commOf lat_a (e_states.getD i [])).length
      (e_states.take i) %
      ncr nol_b (nop - (commOf lat_a (e_states.getD i [])).length) + 1 ≤
    ncr nol_b (nop - (commOf lat_a (e_states.getD i [])).length)
  have := Nat.mod_lt (countClass lat_a
    (commOf lat_a (e_states.getD i [])).length (e_states.take i))
    (show 0 < ncr nol_b
      (nop - (commOf lat_a (e_states.getD i [])).length) by omega)
  omega

/-- Witness for C5 on a concrete four-site joint lattice: the record of
state 1 (`[1, 3]`) is `(1, 1, 1)`. -/
theorem C5_relabel_counters_witness :
    ((1, 1, 1) : ℕ × ℕ × ℕ) =
      (relabel (combos 2 [1, 2, 3, 4]) 2 2 [1, 2]).getD 1 (0, 0, 0) ∧
    (((1, 1, 1) : ℕ × ℕ × ℕ).2.1 =
      (commOf [1, 2] ((combos 2 [1, 2, 3, 4]).getD 1 [])).length ∧
    ((1, 1, 1) : ℕ × ℕ × ℕ).1 =
      ((seenComms [1, 2] ((combos 2 [1, 2, 3, 4]).take (1 + 1))).filter
        (fun c => c.length = ((1, 1, 1) : ℕ × ℕ × ℕ).2.1)).length ∧
    1 ≤ ((1, 1, 1) : ℕ × ℕ × ℕ).1 ∧
    ((1, 1, 1) : ℕ × ℕ × ℕ).1 ≤
      ((seenComms [1, 2] (combos 2 [1, 2, 3, 4])).filter
        (fun c => c.length = ((1, 1, 1) : ℕ × ℕ × ℕ).2.1)).length ∧
    ((1, 1, 1) : ℕ × ℕ × ℕ).2.2 =
      countClass [1, 2] ((1, 1, 1) : ℕ × ℕ × ℕ).2.1
          ((combos 2 [1, 2, 3, 4]).take 1) %
        ncr 2 (2 - ((1, 1, 1) : ℕ × ℕ × ℕ).2.1) + 1 ∧
    1 ≤ ((1, 1, 1) : ℕ × ℕ × ℕ).2.2 ∧
    ((1, 1, 1) : ℕ × ℕ × ℕ).2.2 ≤
      ncr 2 (2 - ((1, 1, 1) : ℕ × ℕ × ℕ).2.1)) :=
  ⟨by decide,
    C5_relabel_counters (combos 2 [1, 2, 3, 4]) 2 2 [1, 2]
      (by decide) 1 (by decide) (1, 1, 1) (by decide)⟩

/-! ### Claim C10: density-matrix indices stay in bounds -/

theorem relabel_getD (e_states : List (List ℤ)) (nop nol_b : ℕ)
    (lat_a : List ℤ) (i : ℕ) (hi : i < e_states.length) :
    (relabel e_states nop nol_b lat_a).getD i (0, 0, 0) =
      (((seenComms lat_a (e_states.take (i + 1))).filter
          (fun c => c.length =
            (commOf lat_a (e_states.getD i [])).length)).length,
        (commOf lat_a (e_states.getD i [])).length,
        countClass lat_a (commOf lat_a (e_states.getD i [])).length
            (e_states.take i) %
          ncr nol_b
            (nop - (commOf lat_a (e_states.getD i [])).length) + 1) := by
  have hlen : (relabelSpec nop nol_b lat_a e_states).length =
      e_states.length := by
    simp [relabelSpec]
  rw [relabel_eq, List.getD_eq_getElem _ _ (by omega)]
  simp only [relabelSpec, List.getElem_map, List.getElem_range]

theorem seenComms_nodup_foldl (lat_a : List ℤ) :
    ∀ (l : List (List ℤ)) (d : List (List ℤ)), d.Nodup →
    (l.foldl (fun d s => if commOf lat_a s ∈ d then d
      else d ++ [commOf lat_a s]) d).Nodup := by
  intro l
  induction l with
  | nil => intro d hd; simpa
  | cons s l ih =>
    intro d hd
    simp only [List.foldl_cons]
    by_cases h : commOf lat_a s ∈ d
    · rw [if_pos h]
      exact ih d hd
    · rw [if_neg h]
      refine ih _ ?_
      simp [List.nodup_append, hd, h]

theorem seenComms_nodup (lat_a : List ℤ) (hist : List (List ℤ)) :
    (seenComms lat_a hist).Nodup :=
  seenComms_nodup_foldl lat_a hist [] List.nodup_nil

/-- A duplicate-free list of labels contained in a duplicate-free list
is no longer than it. -/
theorem nodup_subset_length_le {t l : List ℤ} (ht : t.Nodup)
    (hl : l.Nodup) (hsub : ∀ x ∈ t, x ∈ l) : t.length ≤ l.length := by
  rw [← List.toFinset_card_of_nodup ht, ← List.toFinset_card_of_nodup hl]
  exact Finset.card_le_card (fun x hx =>
    List.mem_toFinset.mpr (hsub x (List.mem_toFinset.mp hx)))

/-- There are at most `C(|lat_a|, n)` distinct strictly increasing
`n`-element A-patterns, so the `a`-counters never pass that bound. -/
theorem seenComms_class_card_le (lat_a : List ℤ) (hist : List (List ℤ))
    (hla : lat_a.Nodup)
    (hsorted : ∀ s ∈ hist, s.Pairwise (· < ·)) (n : ℕ) :
    ((seenComms lat_a hist).filter (fun c => c.length = n)).length ≤
      Nat.choose lat_a.length n := by
  have hLnd : ((seenComms lat_a hist).filter
      (fun c => c.length = n)).Nodup :=
    (seenComms_nodup lat_a hist).filter _
  have hmem : ∀ c ∈ (seenComms lat_a hist).filter
      (fun c => c.length = n),
      c.Pairwise (· < ·) ∧ (∀ x ∈ c, x ∈ lat_a) ∧ c.length = n := by
    intro c hc
    obtain ⟨hc1, hc2⟩ := List.mem_filter.mp hc
    obtain ⟨s, hs, rfl⟩ := (mem_seenComms lat_a hist _).mp hc1
    refine ⟨?_, ?_, by simpa using hc2⟩
    · exact (hsorted s hs).sublist (List.filter_sublist s)
    · intro x hx
      simpa using (List.mem_filter.mp hx).2
  have hinj : ∀ c₁ ∈ (seenComms lat_a hist).filter
      (fun c => c.length = n),
      ∀ c₂ ∈ (seenComms lat_a hist).filter (fun c => c.length = n),
      c₁.toFinset = c₂.toFinset → c₁ = c₂ := by
    intro c₁ h₁ c₂ h₂ hfin
    obtain ⟨hp₁, _, _⟩ := hmem c₁ h₁
    obtain ⟨hp₂, _, _⟩ := hmem c₂ h₂
    have hn₁ : c₁.Nodup := hp₁.imp ne_of_lt
    have hn₂ : c₂.Nodup := hp₂.imp ne_of_lt
    have hperm : c₁.Perm c₂ := by
      rw [List.perm_ext_iff_of_nodup hn₁ hn₂]
      intro a
      rw [← List.mem_toFinset, hfin, List.mem_toFinset]
    exact List.eq_of_perm_of_sorted hperm
      (hp₁.imp le_of_lt) (hp₂.imp le_of_lt)
  have hmapnd : (((seenComms lat_a hist).filter
      (fun c => c.length = n)).map List.toFinset).Nodup :=
    List.Nodup.map_on hinj hLnd
  have hcard : (((seenComms lat_a hist).filter
      (fun c => c.length = n)).map List.toFinset).toFinset.card =
      ((seenComms lat_a hist).filter (fun c => c.length = n)).length := by
    rw [List.toFinset_card_of_nodup hmapnd, List.length_map]
  rw [← hcard]
  have hsub : (((seenComms lat_a hist).filter
      (fun c => c.length = n)).map List.toFinset).toFinset ⊆
      Finset.powersetCard n lat_a.toFinset := by
    intro F hF
    rw [List.mem_toFinset, List.mem_map] at hF
    obtain ⟨c, hc, rfl⟩ := hF
    obtain ⟨hp, hsubl, hlen⟩ := hmem c hc
    rw [Finset.mem_powersetCard]
    constructor
    · intro x hx
      exact List.mem_toFinset.mpr (hsubl x (List.mem_toFinset.mp hx))
    · rw [List.toFinset_card_of_nodup (hp.imp ne_of_lt), hlen]
  calc (((seenComms lat_a hist).filter
      (fun c => c.length = n)).map List.toFinset).toFinset.card
      ≤ (Finset.powersetCard n lat_a.toFinset).card :=
        Finset.card_le_card hsub
  _ = Nat.choose lat_a.toFinset.card n := Finset.card_powersetCard _ _
  _ = Nat.choose lat_a.length n := by
        rw [List.toFinset_card_of_nodup hla]

/-- The index offsets used by `density_matrix_a`
(`label[i][0] + sum_ncr(nol_a, label[i][1]) - 1`). -/
def idxA (nol_a : ℕ) (r : ℕ × ℕ × ℕ) : ℕ :=
  r.1 + sum_ncr nol_a r.2.1 - 1

/-- The index offsets used by `rho_b_pbasis`
(`label[i][2] + sum_ncr(nol_b, nop - label[i][1]) - 1`). -/
def idxB (nol_b nop : ℕ) (r : ℕ × ℕ × ℕ) : ℕ :=
  r.2.2 + sum_ncr nol_b (nop - r.2.1) - 1

/-- C10: for a relabel table built from strictly increasing
`nop`-particle states over the disjoint sub-lattices `lat_a` and `lat_b`,
every index `a_index + sum_ncr(nol_a, n) - 1` computed inside
`density_matrix_a` is below `sum_ncr(nol_a, nop + 1)`, and every index
`b_index + sum_ncr(nol_b, nop - n) - 1` computed inside `rho_b_pbasis` is
below `sum_ncr(nol_b, nop + 1)`: all accumulations stay inside the
allocated matrices. -/
theorem C10_index_bounds (e_states : List (List ℤ)) (nop : ℕ)
    (lat_a lat_b : List ℤ)
    (hla : lat_a.Nodup) (hlb : lat_b.Nodup)
    (hst : ∀ s ∈ e_states, s.Pairwise (· < ·) ∧ s.length = nop ∧
      ∀ x ∈ s, x ∈ lat_a ∨ x ∈ lat_b)
    (i : ℕ) (hi : i < e_states.length) :
    idxA lat_a.length
        ((relabel e_states nop lat_b.length lat_a).getD i (0, 0, 0)) <
      sum_ncr lat_a.length (nop + 1) ∧
    idxB lat_b.length nop
        ((relabel e_states nop lat_b.length lat_a).getD i (0, 0, 0)) <
      sum_ncr lat_b.length (nop + 1) := by
  rw [relabel_getD e_states nop lat_b.length lat_a i hi]
  have hsmem : e_states.getD i [] ∈ e_states := by
    rw [List.getD_eq_getElem _ _ hi]
    exact List.getElem_mem hi
  obtain ⟨hsort, hslen, hsin⟩ := hst _ hsmem
  have hsnd : (e_states.getD i []).Nodup := hsort.imp ne_of_lt
  have hcnd : (commOf lat_a (e_states.getD i [])).Nodup :=
    hsnd.sublist (List.filter_sublist _)
  have hcsub : ∀ x ∈ commOf lat_a (e_states.getD i []), x ∈ lat_a := by
    intro x hx
    simpa using (List.mem_filter.mp hx).2
  have hn_le_na : (commOf lat_a (e_states.getD i [])).length ≤
      lat_a.length := nodup_subset_length_le hcnd hla hcsub
  have hn_le_nop : (commOf lat_a (e_states.getD i [])).length ≤ nop := by
    rw [← hslen]
    exact List.length_filter_le _ _
  have hsplit := List.length_eq_length_filter_add
    (l := e_states.getD i []) (fun k => decide (k ∈ lat_a))
  have hcompl_sub : ∀ x ∈ (e_states.getD i []).filter
      (fun k => ! decide (k ∈ lat_a)), x ∈ lat_b := by
    intro x hx
    obtain ⟨hx1, hx2⟩ := List.mem_filter.mp hx
    rcases hsin x hx1 with h | h
    · simp [h] at hx2
    · exact h
  have hcompl_le : ((e_states.getD i []).filter
      (fun k => ! decide (k ∈ lat_a))).length ≤ lat_b.length :=
    nodup_subset_length_le (hsnd.sublist (List.filter_sublist _)) hlb
      hcompl_sub
  have hrem_le : nop - (commOf lat_a (e_states.getD i [])).length ≤
      lat_b.length := by
    have : (commOf lat_a (e_states.getD i [])).length +
        ((e_states.getD i []).filter
          (fun k => ! decide (k ∈ lat_a))).length = nop := by
      rw [← hslen]
      exact (hsplit.symm : _)
    omega
  have ha_le : ((seenComms lat_a (e_states.take (i + 1))).filter
      (fun c => c.length =
        (commOf lat_a (e_states.getD i [])).length)).length ≤
      Nat.choose lat_a.length
        (commOf lat_a (e_states.getD i [])).length := by
    refine seenComms_class_card_le lat_a _ hla ?_ _
    intro s hs
    exact (hst s (List.take_subset _ _ hs)).1
  have hb_pos : 0 < ncr lat_b.length
      (nop - (commOf lat_a (e_states.getD i [])).length) := by
    rw [ncr_eq_choose hrem_le]
    exact Nat.choose_pos hrem_le
  have hb_le : countClass lat_a
      (commOf lat_a (e_states.getD i [])).length (e_states.take i) %
        ncr lat_b.length
          (nop - (commOf lat_a (e_states.getD i [])).length) + 1 ≤
      ncr lat_b.length
        (nop - (commOf lat_a (e_states.getD i [])).length) := by
    have := Nat.mod_lt (countClass lat_a
      (commOf lat_a (e_states.getD i [])).length (e_states.take i)) hb_pos
    omega
  constructor
  · simp only [idxA]
    have h1 : sum_ncr lat_a.length
        ((commOf lat_a (e_states.getD i [])).length + 1) =
        sum_ncr lat_a.length (commOf lat_a (e_states.getD i [])).length +
          ncr lat_a.length (commOf lat_a (e_states.getD i [])).length :=
      sum_ncr_succ _ _
    have h2 : sum_ncr lat_a.length
        ((commOf lat_a (e_states.getD i [])).length + 1) ≤
        sum_ncr lat_a.length (nop + 1) :=
      sum_ncr_mono _ (by omega)
    have h3 : ncr lat_a.length (commOf lat_a (e_states.getD i [])).length
        = Nat.choose lat_a.length
          (commOf lat_a (e_states.getD i [])).length :=
      ncr_eq_choose hn_le_na
    have h4 : 0 < Nat.choose lat_a.length
        (commOf lat_a (e_states.getD i [])).length :=
      Nat.choose_pos hn_le_na
    omega
  · simp only [idxB]
    have h1 : sum_ncr lat_b.length
        (nop - (commOf lat_a (e_states.getD i [])).length + 1) =
        sum_ncr lat_b.length
            (nop - (commOf lat_a (e_states.getD i [])).length) +
          ncr lat_b.length
            (nop - (commOf lat_a (e_states.getD i [])).length) :=
      sum_ncr_succ _ _
    have h2 : sum_ncr lat_b.length
        (nop - (commOf lat_a (e_states.getD i [])).length + 1) ≤
        sum_ncr lat_b.length (nop + 1) :=
      sum_ncr_mono _ (by omega)
    omega

/-- Witness for C10 on the four-site joint lattice split `{1,2} ∪ {3,4}`. -/
theorem C10_index_bounds_witness :
    idxA ([1, 2] : List ℤ).length
        ((relabel (combos 2 [1, 2, 3, 4]) 2 ([3, 4] : List ℤ).length
          [1, 2]).getD 0 (0, 0, 0)) <
      sum_ncr ([1, 2] : List ℤ).length (2 + 1) ∧
    idxB ([3, 4] : List ℤ).length 2
        ((relabel (combos 2 [1, 2, 3, 4]) 2 ([3, 4] : List ℤ).length
          [1, 2]).getD 0 (0, 0, 0)) <
      sum_ncr ([3, 4] : List ℤ).length (2 + 1) :=
  C10_index_bounds (combos 2 [1, 2, 3, 4]) 2 [1, 2] [3, 4]
    (by decide) (by decide) (by decide) 0 (by decide)

/-! ### Claim C8: `diagonalize` sorts eigenpairs consistently -/

/-- Model of `eigenvalues.argsort()`: a permutation of the index range
that sorts the values (the solver's sort kind is unspecified; insertion
sort realises one sorting permutation). -/
def argsort (vals : List ℚ) : List ℕ :=
  List.insertionSort (fun i j => vals.getD i 0 ≤ vals.getD j 0)
    (List.range vals.length)

/-- Embedding of `diagonalize(h)` downstream of the external `eig` call:
given the eigenvalue list (complex, as pairs of rationals) and the list of
eigenvector columns produced by the solver, take real parts, argsort them,
and reindex values and columns by the same index list. -/
def diagonalize (vals : List (ℚ × ℚ)) (vecs : List (List (ℚ × ℚ))) :
    List ℚ × List (List (ℚ × ℚ)) :=
  let re := vals.map Prod.fst
  let index := argsort re
  (index.map (fun i => re.getD i 0), index.map (fun i => vecs.getD i []))

/-- C8: whatever eigenvalue/eigenvector pairs the solver yields,
`diagonalize` returns the real parts of the eigenvalues sorted in
non-decreasing order, and values and columns are permuted by exactly the
same sorting permutation of the index range, so the `i`-th returned column
stays paired with the `i`-th returned eigenvalue (both come from one
common source index `k`). -/
theorem C8_diagonalize (vals : List (ℚ × ℚ))
    (vecs : List (List (ℚ × ℚ))) (_hlen : vecs.length = vals.length) :
    (argsort (vals.map Prod.fst)).Perm (List.range vals.length) ∧
    (diagonalize vals vecs).1 =
      (argsort (vals.map Prod.fst)).map
        (fun i => (vals.map Prod.fst).getD i 0) ∧
    (diagonalize vals vecs).2 =
      (argsort (vals.map Prod.fst)).map (fun i => vecs.getD i []) ∧
    (diagonalize vals vecs).1.Pairwise (· ≤ ·) ∧
    (∀ i, i < vals.length →
      ∃ k, k < vals.length ∧
        (diagonalize vals vecs).1.getD i 0 =
          (vals.map Prod.fst).getD k 0 ∧
        (diagonalize vals vecs).2.getD i [] = vecs.getD k []) := by
  have hperm : (argsort (vals.map Prod.fst)).Perm
      (List.range (vals.map Prod.fst).length) :=
    List.perm_insertionSort _ _
  rw [List.length_map] at hperm
  have hsorted : List.Sorted
      (fun i j => (vals.map Prod.fst).getD i 0 ≤
        (vals.map Prod.fst).getD j 0) (argsort (vals.map Prod.fst)) := by
    letI : IsTotal ℕ (fun i j => (vals.map Prod.fst).getD i 0 ≤
        (vals.map Prod.fst).getD j 0) := ⟨fun a b => le_total _ _⟩
    letI : IsTrans ℕ (fun i j => (vals.map Prod.fst).getD i 0 ≤
        (vals.map Prod.fst).getD j 0) := ⟨fun a b c => le_trans⟩
    exact List.sorted_insertionSort _ _
  have hargl : (argsort (vals.map Prod.fst)).length = vals.length := by
    rw [hperm.length_eq, List.length_range]
  refine ⟨hperm, rfl, rfl, ?_, ?_⟩
  · exact hsorted.map _ (fun a b h => h)
  · intro i hi
    have hi' : i < (argsort (vals.map Prod.fst)).length := by omega
    refine ⟨(argsort (vals.map Prod.fst)).get ⟨i, hi'⟩, ?_, ?_, ?_⟩
    · have : (argsort (vals.map Prod.fst)).get ⟨i, hi'⟩ ∈
          List.range vals.length :=
        hperm.mem_iff.mp (List.getElem_mem hi')
      simpa using this
    · simp only [List.get_eq_getElem]
      rw [show (diagonalize vals vecs).1 =
        (argsort (vals.map Prod.fst)).map
          (fun i => (vals.map Prod.fst).getD i 0) from rfl,
        List.getD_eq_getElem _ _ (by simpa using hi'), List.getElem_map]
    · simp only [List.get_eq_getElem]
      rw [show (diagonalize vals vecs).2 =
        (argsort (vals.map Prod.fst)).map (fun i => vecs.getD i [])
          from rfl,
        List.getD_eq_getElem _ _ (by simpa using hi'), List.getElem_map]

/-- Witness for C8 on a concrete unsorted spectrum. -/
theorem C8_diagonalize_witness :
    (argsort ([(3, 0), (1, 0), (2, 0)].map Prod.fst)).Perm
      (List.range 3) ∧
    (diagonalize [(3, 0), (1, 0), (2, 0)] [[(1, 0)], [(0, 1)], [(1, 1)]]).1
      = (argsort ([(3, 0), (1, 0), (2, 0)].map Prod.fst)).map
        (fun i => (([(3, 0), (1, 0), (2, 0)] :
          List (ℚ × ℚ)).map Prod.fst).getD i 0) ∧
    (diagonalize [(3, 0), (1, 0), (2, 0)] [[(1, 0)], [(0, 1)], [(1, 1)]]).2
      = (argsort ([(3, 0), (1, 0), (2, 0)].map Prod.fst)).map
        (fun i => ([[(1, 0)], [(0, 1)], [(1, 1)]] :
          List (List (ℚ × ℚ))).getD i []) ∧
    (diagonalize [(3, 0), (1, 0), (2, 0)]
      [[(1, 0)], [(0, 1)], [(1, 1)]]).1.Pairwise (· ≤ ·) ∧
    (∀ i, i < ([(3, 0), (1, 0), (2, 0)] : List (ℚ × ℚ)).length →
      ∃ k, k < ([(3, 0), (1, 0), (2, 0)] : List (ℚ × ℚ)).length ∧
        (diagonalize [(3, 0), (1, 0), (2, 0)]
          [[(1, 0)], [(0, 1)], [(1, 1)]]).1.getD i 0 =
          (([(3, 0), (1, 0), (2, 0)] :
            List (ℚ × ℚ)).map Prod.fst).getD k 0 ∧
        (diagonalize [(3, 0), (1, 0), (2, 0)]
          [[(1, 0)], [(0, 1)], [(1, 1)]]).2.getD i [] =
          ([[(1, 0)], [(0, 1)], [(1, 1)]] :
            List (List (ℚ × ℚ))).getD k []) :=
  C8_diagonalize [(3, 0), (1, 0), (2, 0)] [[(1, 0)], [(0, 1)], [(1, 1)]]
    rfl

/-! ### Claim C9: `naive_thermal` and its frame property -/

/-- `numpy`-style maximum of a list of extended values (`⊥` plays the
role of `-inf`). -/
def maxList (l : List (WithBot ℚ)) : WithBot ℚ :=
  l.foldr max ⊥

/-- The working copy of the density matrix after
`rho_copy = np.copy(rho); np.fill_diagonal(rho_copy, -np.inf)`: every
diagonal cell holds `-inf` (`⊥`), every other cell the original entry. -/
def rho_copy_filled (rho : List (List ℚ)) : List (List (WithBot ℚ)) :=
  (List.range rho.length).map (fun i =>
    (List.range (rho.getD i []).length).map (fun j =>
      if j = i then (⊥ : WithBot ℚ)
      else ((rho.getD i []).getD j 0 : WithBot ℚ)))

/-- Embedding of `naive_thermal(rho)`: the maximum of the diagonal, the
maximum over the `-inf`-diagonal working copy, and the caller's matrix as
it stands after the call. -/
def naive_thermal (rho : List (List ℚ)) :
    (WithBot ℚ × WithBot ℚ) × List (List ℚ) :=
  let max_diag := maxList ((List.range rho.length).map
    (fun i => ((rho.getD i []).getD i 0 : WithBot ℚ)))
  let max_offdiag := maxList (rho_copy_filled rho).flatten
  ((max_diag, max_offdiag), rho)

theorem maxList_append (l₁ l₂ : List (WithBot ℚ)) :
    maxList (l₁ ++ l₂) = max (maxList l₁) (maxList l₂) := by
  induction l₁ with
  | nil =>
    simp only [maxList, List.nil_append, List.foldr_nil]
    exact (max_eq_right bot_le).symm
  | cons x l ih =>
    simp only [maxList, List.cons_append, List.foldr_cons] at *
    rw [ih, max_assoc]

theorem maxList_if_bot (i : ℕ) (g : ℕ → WithBot ℚ) :
    ∀ l : List ℕ,
    maxList (l.map (fun j => if j = i then (⊥ : WithBot ℚ) else g j)) =
      maxList ((l.filter (fun j => ¬ j = i)).map g) := by
  intro l
  induction l with
  | nil => rfl
  | cons j l ih =>
    simp only [List.map_cons, List.filter_cons]
    by_cases h : j = i
    · rw [if_pos h, if_neg (by simp [h])]
      show max ⊥ (maxList (l.map _)) = _
      rw [max_eq_right bot_le, ih]
    · rw [if_neg h, if_pos (by simp [h]), List.map_cons]
      show max (g j) (maxList (l.map _)) = max (g j) (maxList _)
      rw [ih]

theorem maxList_flatten (L : List (List (WithBot ℚ))) :
    maxList L.flatten = maxList (L.map maxList) := by
  induction L with
  | nil => rfl
  | cons l L ih =>
    rw [List.flatten_cons, maxList_append, ih]
    show _ = List.foldr max ⊥ (maxList l :: L.map maxList)
    rw [List.foldr_cons]
    rfl

/-- C9: `naive_thermal` returns the maximum diagonal element and the
maximum off-diagonal element (the maximum over the working copy whose
diagonal was set to `-inf` equals the maximum over the off-diagonal cells),
and the caller's matrix is unchanged after the call. -/
theorem C9_naive_thermal (rho : List (List ℚ)) :
    (naive_thermal rho).1.1 =
      maxList ((List.range rho.length).map
        (fun i => ((rho.getD i []).getD i 0 : WithBot ℚ))) ∧
    (naive_thermal rho).1.2 =
      maxList ((List.range rho.length).map (fun i =>
        maxList (((List.range (rho.getD i []).length).filter
            (fun j => ¬ j = i)).map
          (fun j => ((rho.getD i []).getD j 0 : WithBot ℚ))))) ∧
    (naive_thermal rho).2 = rho := by
  refine ⟨rfl, ?_, rfl⟩
  show maxList (rho_copy_filled rho).flatten = _
  rw [rho_copy_filled, maxList_flatten, List.map_map]
  refine congrArg _ (List.map_congr_left ?_)
  intro i _
  simp only [Function.comp_apply]
  exact maxList_if_bot i
    (fun j => ((rho.getD i []).getD j 0 : WithBot ℚ))
    (List.range (rho.getD i []).length)

/-! ### Claim C6: block decomposition of the complete joint state space -/

/-- The lexicographically ordered A-parts of the `n`-combinations of a
lattice `A ++ B`: the sublists `P` of `A` with `|P| ≤ n` and
`n - |P| ≤ q` (where `q = |B|`), in the order in which maximal runs of a
fixed A-part appear inside `combos n (A ++ B)`. -/
def aparts : ℕ → List ℤ → ℕ → List (List ℤ)
  | 0, _, _ => [[]]
  | n + 1, [], q => if n + 1 ≤ q then [[]] else []
  | n + 1, x :: xs, q =>
    ((aparts n xs q).map (fun P => x :: P)) ++ aparts (n + 1) xs q

theorem combos_nil_of_lt : ∀ {n : ℕ} {l : List ℤ}, l.length < n →
    combos n l = []
  | 0, _, h => absurd h (by omega)
  | _ + 1, [], _ => rfl
  | n + 1, x :: xs, h => by
    simp only [combos]
    rw [combos_nil_of_lt (l := xs) (by simpa using h),
      combos_nil_of_lt (l := xs) (by simp at h ⊢; omega)]
    simp

/-- The combinations of a split lattice `A ++ B` decompose into maximal
contiguous runs, one per A-part `P`, each run enumerating all B-parts. -/
theorem combos_append (B : List ℤ) : ∀ (n : ℕ) (A : List ℤ),
    combos n (A ++ B) = (aparts n A B.length).flatMap
      (fun P => (combos (n - P.length) B).map (fun Q => P ++ Q))
  | 0, A => by simp [combos, aparts]
  | n + 1, [] => by
    simp only [List.nil_append, aparts]
    by_cases h : n + 1 ≤ B.length
    · rw [if_pos h]
      simp
    · rw [if_neg h]
      rw [combos_nil_of_lt (by omega)]
      simp
  | n + 1, x :: xs => by
    simp only [List.cons_append, combos, aparts, List.flatMap_append,
      List.flatMap_map, List.append_eq]
    rw [combos_append B n xs, combos_append B (n + 1) xs,
      List.map_flatMap]
    congr 1
    refine List.flatMap_congr ?_
    intro P _
    rw [List.map_map]
    have hl : n + 1 - (x :: P).length = n - P.length := by
      simp only [List.length_cons]
      omega
    rw [hl]
    rfl

theorem aparts_mem : ∀ {n : ℕ} {A : List ℤ} {q : ℕ} {P : List ℤ},
    P ∈ aparts n A q → P.Sublist A ∧ P.length ≤ n ∧ n - P.length ≤ q
  | 0, A, q, P, h => by
    simp only [aparts, List.mem_singleton] at h
    subst h
    exact ⟨List.nil_sublist A, by simp, by simp⟩
  | n + 1, [], q, P, h => by
    simp only [aparts] at h
    split_ifs at h with hq
    · simp only [List.mem_singleton] at h
      subst h
      exact ⟨List.Sublist.refl [], by simp, by simpa using hq⟩
    · simp at h
  | n + 1, x :: xs, q, P, h => by
    simp only [aparts, List.mem_append, List.mem_map] at h
    rcases h with ⟨P', hP', rfl⟩ | h
    · obtain ⟨hs, hl, hq⟩ := aparts_mem hP'
      exact ⟨hs.cons₂ x, by simp [hl], by simp only [List.length_cons]; omega⟩
    · obtain ⟨hs, hl, hq⟩ := aparts_mem h
      exact ⟨hs.cons x, by omega, by omega⟩

theorem aparts_nodup : ∀ (n : ℕ) {A : List ℤ} (q : ℕ), A.Nodup →
    (aparts n A q).Nodup
  | 0, A, q, _ => by simp [aparts]
  | n + 1, [], q, _ => by
    simp only [aparts]
    split_ifs <;> simp
  | n + 1, x :: xs, q, h => by
    have hx : x ∉ xs := (List.nodup_cons.mp h).1
    have hxs : xs.Nodup := (List.nodup_cons.mp h).2
    simp only [aparts]
    refine List.Nodup.append ?_ (aparts_nodup (n + 1) q hxs) ?_
    · exact (aparts_nodup n q hxs).map fun a b hab => by simpa using hab
    · intro P hP hP'
      simp only [List.mem_map] at hP
      obtain ⟨P', _, rfl⟩ := hP
      exact hx ((aparts_mem hP').1.subset (by simp))

/-- A strictly-ordered deduplicated ambient list determines each of its
sublists by the underlying element set. -/
theorem sublist_eq_of_toFinset : ∀ {A s₁ s₂ : List ℤ}, A.Nodup →
    s₁.Sublist A → s₂.Sublist A → s₁.toFinset = s₂.toFinset → s₁ = s₂ := by
  intro A
  induction A with
  | nil =>
    intro s₁ s₂ _ h₁ h₂ _
    rw [List.sublist_nil.mp h₁, List.sublist_nil.mp h₂]
  | cons x A ih =>
    intro s₁ s₂ hnd h₁ h₂ hfin
    have hx : x ∉ A := (List.nodup_cons.mp hnd).1
    have hA : A.Nodup := (List.nodup_cons.mp hnd).2
    cases h₁ with
    | cons _ h₁' =>
      cases h₂ with
      | cons _ h₂' => exact ih hA h₁' h₂' hfin
      | cons₂ _ h₂' =>
        exfalso
        rename_i t₂
        have hxs : x ∈ s₁ := by
          rw [← List.mem_toFinset, hfin, List.mem_toFinset]
          simp
        exact hx (h₁'.subset hxs)
    | cons₂ _ h₁' =>
      rename_i t₁
      cases h₂ with
      | cons _ h₂' =>
        exfalso
        have hxs : x ∈ s₂ := by
          rw [← List.mem_toFinset, ← hfin, List.mem_toFinset]
          simp
        exact hx (h₂'.subset hxs)
      | cons₂ _ h₂' =>
        rename_i t₂
        have hx₁ : x ∉ t₁ := fun hc => hx (h₁'.subset hc)
        have hx₂ : x ∉ t₂ := fun hc => hx (h₂'.subset hc)
        have hfin' : t₁.toFinset = t₂.toFinset := by
          have h1 : (insert x t₁.toFinset).erase x = t₁.toFinset :=
            Finset.erase_insert (by simpa using hx₁)
          have h2 : (insert x t₂.toFinset).erase x = t₂.toFinset :=
            Finset.erase_insert (by simpa using hx₂)
          rw [← h1, ← h2]
          congr 1
          simpa using hfin
        rw [ih hA h₁' h₂' hfin']

/-- At most `C(|A|, n)` pairwise distinct sublists of a duplicate-free
list `A` have length `n`. -/
theorem sublists_class_card_le (A : List ℤ) (hA : A.Nodup)
    (L : List (List ℤ)) (hL : L.Nodup) (hmem : ∀ c ∈ L, c.Sublist A)
    (n : ℕ) :
    (L.filter (fun c => c.length = n)).length ≤
      Nat.choose A.length n := by
  have hLnd : (L.filter (fun c => c.length = n)).Nodup := hL.filter _
  have hinj : ∀ c₁ ∈ L.filter (fun c => c.length = n),
      ∀ c₂ ∈ L.filter (fun c => c.length = n),
      c₁.toFinset = c₂.toFinset → c₁ = c₂ := by
    intro c₁ h₁ c₂ h₂ hfin
    exact sublist_eq_of_toFinset hA
      (hmem c₁ (List.mem_of_mem_filter h₁))
      (hmem c₂ (List.mem_of_mem_filter h₂)) hfin
  have hmapnd : ((L.filter (fun c => c.length = n)).map
      List.toFinset).Nodup := List.Nodup.map_on hinj hLnd
  have hcard : ((L.filter (fun c => c.length = n)).map
      List.toFinset).toFinset.card =
      (L.filter (fun c => c.length = n)).length := by
    rw [List.toFinset_card_of_nodup hmapnd, List.length_map]
  rw [← hcard]
  have hsub : ((L.filter (fun c => c.length = n)).map
      List.toFinset).toFinset ⊆ Finset.powersetCard n A.toFinset := by
    intro F hF
    rw [List.mem_toFinset, List.mem_map] at hF
    obtain ⟨c, hc, rfl⟩ := hF
    have hcs : c.Sublist A := hmem c (List.mem_of_mem_filter hc)
    have hcl : c.length = n := by
      have := (List.mem_filter.mp hc).2
      simpa using this
    rw [Finset.mem_powersetCard]
    constructor
    · intro y hy
      exact List.mem_toFinset.mpr (hcs.subset (List.mem_toFinset.mp hy))
    · rw [List.toFinset_card_of_nodup (hA.sublist hcs), hcl]
  calc ((L.filter (fun c => c.length = n)).map
      List.toFinset).toFinset.card
      ≤ (Finset.powersetCard n A.toFinset).card := Finset.card_le_card hsub
  _ = Nat.choose A.toFinset.card n := Finset.card_powersetCard _ _
  _ = Nat.choose A.length n := by rw [List.toFinset_card_of_nodup hA]

/-- Decomposition of an index into a flattened list of groups: group
number, offset in the group, and the shapes of the prefixes. -/
theorem flatMap_decomp (f : List ℤ → List (List ℤ)) :
    ∀ (Ps : List (List ℤ)) (i : ℕ), i < (Ps.flatMap f).length →
    ∃ g t, g < Ps.length ∧ t < (f (Ps.getD g [])).length ∧
      i = ((Ps.take g).flatMap f).length + t ∧
      (Ps.flatMap f).getD i [] = (f (Ps.getD g [])).getD t [] ∧
      (Ps.flatMap f).take i =
        (Ps.take g).flatMap f ++ (f (Ps.getD g [])).take t ∧
      (Ps.flatMap f).take (i + 1) =
        (Ps.take g).flatMap f ++ (f (Ps.getD g [])).take (t + 1) := by
  intro Ps
  induction Ps with
  | nil => intro i hi; simp at hi
  | cons P Ps' ih =>
    intro i hi
    rw [show (P :: Ps').flatMap f = f P ++ Ps'.flatMap f from rfl] at hi ⊢
    by_cases hc : i < (f P).length
    · refine ⟨0, i, by simp, by simpa using hc, by simp, ?_, ?_, ?_⟩
      · rw [List.getD_append _ _ _ _ hc]
        simp
      · rw [List.take_append_eq_append_take,
          Nat.sub_eq_zero_of_le (by omega), List.take_zero,
          List.append_nil]
        simp
      · rw [List.take_append_eq_append_take,
          Nat.sub_eq_zero_of_le (by omega), List.take_zero,
          List.append_nil]
        simp
    · push_neg at hc
      have hi' : i - (f P).length < (Ps'.flatMap f).length := by
        rw [List.length_append] at hi
        omega
      obtain ⟨g, t, hg, ht, heq, hget, htake, htake1⟩ := ih _ hi'
      refine ⟨g + 1, t, by simpa using hg, by simpa using ht, ?_, ?_, ?_,
        ?_⟩
      · rw [show (P :: Ps').take (g + 1) = P :: Ps'.take g from rfl,
          show (P :: Ps'.take g).flatMap f =
            f P ++ (Ps'.take g).flatMap f from rfl, List.length_append]
        omega
      · rw [List.getD_append_right _ _ _ _ hc,
          show (P :: Ps').getD (g + 1) [] = Ps'.getD g [] from rfl]
        exact hget
      · rw [show (P :: Ps').take (g + 1) = P :: Ps'.take g from rfl,
          show (P :: Ps'.take g).flatMap f =
            f P ++ (Ps'.take g).flatMap f from rfl,
          List.take_append_eq_append_take,
          List.take_of_length_le (by omega), List.append_assoc, htake,
          show (P :: Ps').getD (g + 1) [] = Ps'.getD g [] from rfl]
      · rw [show (P :: Ps').take (g + 1) = P :: Ps'.take g from rfl,
          show (P :: Ps'.take g).flatMap f =
            f P ++ (Ps'.take g).flatMap f from rfl,
          List.take_append_eq_append_take,
          List.take_of_length_le (by omega), List.append_assoc,
          show i + 1 - (f P).length = i - (f P).length + 1 by omega,
          htake1,
          show (P :: Ps').getD (g + 1) [] = Ps'.getD g [] from rfl]

/-- States of a run with a fixed A-part `P` all have `comm = P`. -/
theorem commOf_group {lat_a : List ℤ} {P Q : List ℤ}
    (hP : ∀ x ∈ P, x ∈ lat_a) (hQ : ∀ x ∈ Q, ¬ x ∈ lat_a) :
    commOf lat_a (P ++ Q) = P := by
  simp only [commOf, List.filter_append]
  rw [List.filter_eq_self.mpr (by intro a ha; simpa using hP a ha),
    List.filter_eq_nil_iff.mpr (by intro a ha; simpa using hQ a ha),
    List.append_nil]

theorem seen_foldl_const (lat_a : List ℤ) :
    ∀ (l : List (List ℤ)) (d : List (List ℤ)),
    (∀ s ∈ l, commOf lat_a s ∈ d) →
    l.foldl (fun d s => if commOf lat_a s ∈ d then d
      else d ++ [commOf lat_a s]) d = d := by
  intro l
  induction l with
  | nil => intro d _; rfl
  | cons s l ih =>
    intro d h
    simp only [List.foldl_cons, if_pos (h s (by simp))]
    exact ih d (fun t ht => h t (by simp [ht]))

theorem seen_foldl_group (lat_a : List ℤ) (P : List ℤ)
    (Qs : List (List ℤ)) (d : List (List ℤ)) (hne : Qs ≠ [])
    (hcomm : ∀ Q ∈ Qs, commOf lat_a (P ++ Q) = P) (hPd : ¬ P ∈ d) :
    (Qs.map (fun Q => P ++ Q)).foldl
      (fun d s => if commOf lat_a s ∈ d then d
        else d ++ [commOf lat_a s]) d = d ++ [P] := by
  cases Qs with
  | nil => exact absurd rfl hne
  | cons Q Qs' =>
    simp only [List.map_cons, List.foldl_cons, hcomm Q (by simp),
      if_neg hPd]
    refine seen_foldl_const lat_a _ _ ?_
    intro s hs
    simp only [List.mem_map] at hs
    obtain ⟨Q', hQ', rfl⟩ := hs
    rw [hcomm Q' (by simp [hQ'])]
    simp

/-- Processing the groups of a split state space records exactly the list
of A-parts, in order. -/
theorem seen_foldl_groups (lat_a B : List ℤ) (nop : ℕ) :
    ∀ (Ps : List (List ℤ)) (d : List (List ℤ)),
    (∀ P ∈ Ps, (∀ x ∈ P, x ∈ lat_a) ∧ nop - P.length ≤ B.length) →
    (∀ x ∈ B, ¬ x ∈ lat_a) →
    (∀ P ∈ Ps, ¬ P ∈ d) → Ps.Nodup →
    (Ps.flatMap (fun P => (combos (nop - P.length) B).map
      (fun Q => P ++ Q))).foldl
      (fun d s => if commOf lat_a s ∈ d then d
        else d ++ [commOf lat_a s]) d = d ++ Ps := by
  intro Ps
  induction Ps with
  | nil => intro d _ _ _ _; simp
  | cons P Ps' ih =>
    intro d hprops hdisj hd hnd
    rw [List.flatMap_cons, List.foldl_append]
    have hcomm : ∀ Q ∈ combos (nop - P.length) B,
        commOf lat_a (P ++ Q) = P := by
      intro Q hQ
      refine commOf_group (hprops P (by simp)).1 ?_
      intro x hx
      exact hdisj x ((combos_mem hQ).1.subset hx)
    have hne : combos (nop - P.length) B ≠ [] := by
      have hlen : (combos (nop - P.length) B).length =
          Nat.choose B.length (nop - P.length) := length_combos _ _
      have hpos : 0 < Nat.choose B.length (nop - P.length) :=
        Nat.choose_pos (hprops P (by simp)).2
      intro hc
      rw [hc] at hlen
      simp at hlen
      omega
    rw [seen_foldl_group lat_a P _ d hne hcomm (hd P (by simp))]
    rw [ih (d ++ [P]) (fun P' hP' => hprops P' (by simp [hP']))
      hdisj ?_ (List.nodup_cons.mp hnd).2]
    · rw [List.append_assoc]
      rfl
    · intro P' hP'
      simp only [List.mem_append, List.mem_singleton]
      rintro (hc | hc)
      · exact hd P' (by simp [hP']) hc
      · exact (List.nodup_cons.mp hnd).1 (hc ▸ hP')

theorem countClass_uniform (lat_a : List ℤ) (P : List ℤ) (n : ℕ) :
    ∀ (l : List (List ℤ)), (∀ s ∈ l, commOf lat_a s = P) →
    countClass lat_a n l = if P.length = n then l.length else 0 := by
  intro l
  induction l with
  | nil => intro _; simp [countClass]
  | cons s l ih =>
    intro h
    have hs : commOf lat_a s = P := h s (by simp)
    have hrest := ih (fun t ht => h t (by simp [ht]))
    simp only [countClass] at hrest ⊢
    rw [List.filter_cons]
    by_cases hc : P.length = n
    · rw [if_pos (by simp [hs, hc]), if_pos hc]
      rw [if_pos hc] at hrest
      simp only [List.length_cons, hrest]
    · rw [if_neg (by simp [hs, hc]), if_neg hc]
      rw [if_neg hc] at hrest
      exact hrest

theorem countClass_append (lat_a : List ℤ) (n : ℕ)
    (l₁ l₂ : List (List ℤ)) :
    countClass lat_a n (l₁ ++ l₂) =
      countClass lat_a n l₁ + countClass lat_a n l₂ := by
  simp [countClass, List.filter_append]

/-- Every complete class-`n` group contributes a full period
`ncr(|B|, nop - n)` to the class counter, so whole groups leave the
cycling counter at zero. -/
theorem countClass_flatMap_mod (lat_a B : List ℤ) (nop n : ℕ)
    (hdisj : ∀ x ∈ B, ¬ x ∈ lat_a) :
    ∀ (Ps : List (List ℤ)),
    (∀ P ∈ Ps, (∀ x ∈ P, x ∈ lat_a) ∧ nop - P.length ≤ B.length) →
    countClass lat_a n (Ps.flatMap (fun P =>
      (combos (nop - P.length) B).map (fun Q => P ++ Q))) %
      ncr B.length (nop - n) = 0 := by
  intro Ps
  induction Ps with
  | nil => intro _; simp [countClass]
  | cons P Ps' ih =>
    intro hprops
    rw [List.flatMap_cons, countClass_append]
    have hcomm : ∀ s ∈ (combos (nop - P.length) B).map
        (fun Q => P ++ Q), commOf lat_a s = P := by
      intro s hs
      simp only [List.mem_map] at hs
      obtain ⟨Q, hQ, rfl⟩ := hs
      refine commOf_group (hprops P (by simp)).1 ?_
      intro x hx
      exact hdisj x ((combos_mem hQ).1.subset hx)
    rw [countClass_uniform lat_a P n _ hcomm]
    have hrest := ih (fun P' hP' => hprops P' (by simp [hP']))
    by_cases hc : P.length = n
    · rw [if_pos hc]
      have hglen : ((combos (nop - P.length) B).map
          (fun Q => P ++ Q)).length = ncr B.length (nop - n) := by
        rw [List.length_map, length_combos,
          ncr_eq_choose (by rw [← hc]; exact (hprops P (by simp)).2), hc]
      rw [hglen, Nat.add_mod_left]
      exact hrest
    · rw [if_neg hc, Nat.zero_add]
      exact hrest

/-- The relabel record of the `i`-th state of a group-structured state
space: for the state at offset `t` of group `g` (with A-part `P`), the
record is `(#class-|P| A-parts among the first g+1 groups, |P|, t + 1)`. -/
theorem grouped_label (lat_a B : List ℤ) (nop : ℕ)
    (hdisj : ∀ x ∈ B, ¬ x ∈ lat_a)
    (Ps : List (List ℤ)) (hnd : Ps.Nodup)
    (hprops : ∀ P ∈ Ps, (∀ x ∈ P, x ∈ lat_a) ∧
      nop - P.length ≤ B.length) :
    ∀ i, i < (Ps.flatMap (fun P => (combos (nop - P.length) B).map
      (fun Q => P ++ Q))).length →
    ∃ g t, g < Ps.length ∧
      t < ncr B.length (nop - (Ps.getD g []).length) ∧
      i = ((Ps.take g).flatMap (fun P =>
        (combos (nop - P.length) B).map (fun Q => P ++ Q))).length + t ∧
      (relabel (Ps.flatMap (fun P => (combos (nop - P.length) B).map
          (fun Q => P ++ Q))) nop B.length lat_a).getD i (0, 0, 0) =
        (((Ps.take (g + 1)).filter
            (fun c => c.length = (Ps.getD g []).length)).length,
          (Ps.getD g []).length,
          t + 1) := by
  intro i hi
  obtain ⟨g, t, hg, ht, heq, hget, htake, htake1⟩ :=
    flatMap_decomp (fun P => (combos (nop - P.length) B).map
      (fun Q => P ++ Q)) Ps i hi
  have hPmem : Ps.getD g [] ∈ Ps := by
    rw [List.getD_eq_getElem _ _ hg]
    exact List.getElem_mem hg
  have hPprops := hprops _ hPmem
  have hflen : ((fun P => (combos (nop - P.length) B).map
      (fun Q => P ++ Q)) (Ps.getD g [])).length =
      ncr B.length (nop - (Ps.getD g []).length) := by
    simp only [List.length_map, length_combos]
    rw [ncr_eq_choose hPprops.2]
  have htb : t < ncr B.length (nop - (Ps.getD g []).length) := by
    rw [← hflen]
    exact ht
  refine ⟨g, t, hg, htb, heq, ?_⟩
  rw [relabel_getD _ _ _ _ i hi]
  -- the i-th state is P ++ Q_t and its A-pattern is P
  have htQ : t < (combos (nop - (Ps.getD g []).length) B).length := by
    simpa using ht
  have hstate : (Ps.flatMap (fun P =>
      (combos (nop - P.length) B).map (fun Q => P ++ Q))).getD i [] =
      Ps.getD g [] ++
        (combos (nop - (Ps.getD g []).length) B).getD t [] := by
    rw [hget, List.getD_eq_getElem _ _ (by simpa using ht),
      List.getElem_map, List.getD_eq_getElem _ _ htQ]
  have hQmem : (combos (nop - (Ps.getD g []).length) B).getD t [] ∈
      combos (nop - (Ps.getD g []).length) B := by
    rw [List.getD_eq_getElem _ _ htQ]
    exact List.getElem_mem htQ
  have hcommi : commOf lat_a ((Ps.flatMap (fun P =>
      (combos (nop - P.length) B).map (fun Q => P ++ Q))).getD i []) =
      Ps.getD g [] := by
    rw [hstate]
    refine commOf_group hPprops.1 ?_
    intro x hx
    exact hdisj x ((combos_mem hQmem).1.subset hx)
  -- the A-patterns seen after i+1 states are the first g+1 parts
  have hgroupprops : ∀ P ∈ Ps.take g, (∀ x ∈ P, x ∈ lat_a) ∧
      nop - P.length ≤ B.length :=
    fun P hP => hprops P (List.take_subset g Ps hP)
  have hPnotin : ¬ Ps.getD g [] ∈ Ps.take g := by
    intro hc
    rw [List.getD_eq_getElem _ _ hg] at hc
    obtain ⟨k, hk, hkeq⟩ := List.getElem_of_mem hc
    have hk' : k < Ps.length := by
      have := List.length_take g Ps
      omega
    rw [List.getElem_take Ps] at hkeq
    have hkne : k ≠ g := by
      have := List.length_take g Ps
      omega
    exact hkne ((List.Nodup.getElem_inj_iff hnd).mp hkeq)
  have hseen : seenComms lat_a ((Ps.flatMap (fun P =>
      (combos (nop - P.length) B).map (fun Q => P ++ Q))).take (i + 1)) =
      Ps.take g ++ [Ps.getD g []] := by
    rw [htake1, seenComms, List.foldl_append]
    rw [show ((Ps.take g).flatMap (fun P =>
      (combos (nop - P.length) B).map (fun Q => P ++ Q))).foldl _ [] =
      seenComms lat_a ((Ps.take g).flatMap (fun P =>
        (combos (nop - P.length) B).map (fun Q => P ++ Q))) from rfl]
    rw [show seenComms lat_a ((Ps.take g).flatMap (fun P =>
      (combos (nop - P.length) B).map (fun Q => P ++ Q))) =
      [] ++ Ps.take g from
      seen_foldl_groups lat_a B nop (Ps.take g) [] hgroupprops hdisj
        (by simp) (hnd.sublist (List.take_sublist g Ps))]
    rw [List.nil_append]
    have hmt : ((fun P => (combos (nop - P.length) B).map
        (fun Q => P ++ Q)) (Ps.getD g [])).take (t + 1) =
        ((combos (nop - (Ps.getD g []).length) B).take (t + 1)).map
          (fun Q => Ps.getD g [] ++ Q) := by
      simp [List.map_take]
    rw [hmt]
    refine seen_foldl_group lat_a _ _ _ ?_ ?_ hPnotin
    · intro hc
      have := congrArg List.length hc
      rw [List.length_take] at this
      simp only [List.length_nil] at this
      omega
    · intro Q hQ
      refine commOf_group hPprops.1 ?_
      intro x hx
      have hQB : Q ∈ combos (nop - (Ps.getD g []).length) B :=
        List.take_subset _ _ hQ
      exact hdisj x ((combos_mem hQB).1.subset hx)
  -- the class count before i is ≡ t modulo the cycle length
  have hcount : countClass lat_a (Ps.getD g []).length
      ((Ps.flatMap (fun P => (combos (nop - P.length) B).map
        (fun Q => P ++ Q))).take i) %
      ncr B.length (nop - (Ps.getD g []).length) = t := by
    rw [htake, countClass_append]
    have h1 := countClass_flatMap_mod lat_a B nop
      (Ps.getD g []).length hdisj (Ps.take g) hgroupprops
    have hmt : ((fun P => (combos (nop - P.length) B).map
        (fun Q => P ++ Q)) (Ps.getD g [])).take t =
        ((combos (nop - (Ps.getD g []).length) B).take t).map
          (fun Q => Ps.getD g [] ++ Q) := by
      simp [List.map_take]
    have h2 : countClass lat_a (Ps.getD g []).length
        (((fun P => (combos (nop - P.length) B).map
          (fun Q => P ++ Q)) (Ps.getD g [])).take t) = t := by
      rw [hmt, countClass_uniform lat_a (Ps.getD g []) _ _ ?_]
      · rw [if_pos rfl, List.length_map, List.length_take]
        have := htQ
        omega
      · intro s hs
        simp only [List.mem_map] at hs
        obtain ⟨Q, hQ, rfl⟩ := hs
        refine commOf_group hPprops.1 ?_
        intro x hx
        have hQB : Q ∈ combos (nop - (Ps.getD g []).length) B :=
          List.take_subset _ _ hQ
        exact hdisj x ((combos_mem hQB).1.subset hx)
    rw [h2, Nat.add_mod, h1, Nat.zero_add,
      Nat.mod_mod_of_dvd t (dvd_refl _), Nat.mod_eq_of_lt htb]
  rw [hcommi, hseen, hcount]
  congr 1
  rw [List.take_succ, List.getElem?_eq_getElem hg,
    List.getD_eq_getElem _ _ hg]
  rfl

/-! ### Reduced density matrices (`density_matrix_a`, `rho_b_pbasis`) -/

/-- Complex conjugate on exact complex numbers (pairs of rationals). -/
def conjC (z : ℚ × ℚ) : ℚ × ℚ := (z.1, -z.2)

/-- Complex multiplication on pairs of rationals. -/
def mulC (x y : ℚ × ℚ) : ℚ × ℚ :=
  (x.1 * y.1 - x.2 * y.2, x.1 * y.2 + x.2 * y.1)

/-- `np.vdot(a, b) = conj(a) * b` on scalars. -/
def vdotC (x y : ℚ × ℚ) : ℚ × ℚ := mulC (conjC x) y

/-- The row-major pair traversal of the two nested `for` loops. -/
def pairList (nos : ℕ) : List (ℕ × ℕ) :=
  (List.range nos).flatMap (fun i => (List.range nos).map (fun j => (i, j)))

/-- The accumulation loop shared by both density-matrix builders: starting
from a zero matrix, for every pair `(i, j)` that satisfies the label-match
condition, add the term to the cell designated by `cell i j`. -/
def accumPairs (cond : ℕ → ℕ → Bool) (cell : ℕ → ℕ → ℕ × ℕ)
    (term : ℕ → ℕ → ℚ × ℚ) (ps : List (ℕ × ℕ)) : ℕ → ℕ → ℚ × ℚ :=
  ps.foldl (fun M p =>
    if cond p.1 p.2 then
      fun m n =>
        if m = (cell p.1 p.2).1 ∧ n = (cell p.1 p.2).2 then
          M m n + term p.1 p.2
        else M m n
    else M) (fun _ _ => 0)

/-- The matrix accumulated by `density_matrix_a` (match on the `n` and
`b` coordinates, write at the `a`-based indices). -/
def density_matrix_a_mat (label : List (ℕ × ℕ × ℕ)) (e_vec : List (ℚ × ℚ))
    (nos nol_a : ℕ) : ℕ → ℕ → ℚ × ℚ :=
  accumPairs
    (fun i j =>
      decide ((label.getD i (0, 0, 0)).2.1 = (label.getD j (0, 0, 0)).2.1)
        && decide ((label.getD i (0, 0, 0)).2.2 =
          (label.getD j (0, 0, 0)).2.2))
    (fun i j => (idxA nol_a (label.getD i (0, 0, 0)),
      idxA nol_a (label.getD j (0, 0, 0))))
    (fun i j => vdotC (e_vec.getD j (0, 0)) (e_vec.getD i (0, 0)))
    (pairList nos)

/-- The matrix accumulated by `rho_b_pbasis` (match on the `n` and `a`
coordinates, write at the `b`-based indices). -/
def rho_b_mat (label : List (ℕ × ℕ × ℕ)) (e_vec : List (ℚ × ℚ))
    (nos nol_b nop : ℕ) : ℕ → ℕ → ℚ × ℚ :=
  accumPairs
    (fun i j =>
      decide ((label.getD i (0, 0, 0)).2.1 = (label.getD j (0, 0, 0)).2.1)
        && decide ((label.getD i (0, 0, 0)).1 =
          (label.getD j (0, 0, 0)).1))
    (fun i j => (idxB nol_b nop (label.getD i (0, 0, 0)),
      idxB nol_b nop (label.getD j (0, 0, 0))))
    (fun i j => vdotC (e_vec.getD j (0, 0)) (e_vec.getD i (0, 0)))
    (pairList nos)

/-- `np.trace(M.real)` over the allocated `dim × dim` matrix. -/
def traceRe (M : ℕ → ℕ → ℚ × ℚ) (dim : ℕ) : ℚ :=
  ((List.range dim).map (fun m => (M m m).1)).sum

/-- Embedding of `density_matrix_a`: build the matrix, then run the trace
check.  When the real trace deviates from `1` by more than `0.1` the
Python code calls `warnings.warn('…', den_trace_a)` with a float in the
`category` slot, which raises `TypeError`; the run therefore aborts
instead of returning the matrix. -/
def density_matrix_a (label : List (ℕ × ℕ × ℕ)) (e_vec : List (ℚ × ℚ))
    (nos nol_a nop : ℕ) : Except String (ℕ → ℕ → ℚ × ℚ) :=
  let dm := density_matrix_a_mat label e_vec nos nol_a
  let den_trace_a := traceRe dm (sum_ncr nol_a (nop + 1))
  if 1 / 10 < |den_trace_a - 1| then
    Except.error "TypeError: category must be a Warning subclass"
  else
    Except.ok dm

/-- Embedding of `rho_b_pbasis`: build the matrix, print a warning line
(modelled as a Boolean diagnostic flag) when the real trace deviates from
`1` by more than `0.1`, and return the matrix regardless. -/
def rho_b_pbasis (label : List (ℕ × ℕ × ℕ)) (e_vec : List (ℚ × ℚ))
    (nos nol_b nop : ℕ) : (ℕ → ℕ → ℚ × ℚ) × Bool :=
  let rho := rho_b_mat label e_vec nos nol_b nop
  let tr_rho := traceRe rho (sum_ncr nol_b (nop + 1))
  (rho, decide (1 / 10 < |tr_rho - 1|))

/-- C3 (refuted for `density_matrix_a`): on a one-state system with the
zero vector the real trace is `0`, which deviates from `1` by more than
`0.1`; `rho_b_pbasis` prints its warning and still returns the matrix,
but `density_matrix_a` raises `TypeError` from `warnings.warn` instead of
warning non-fatally. -/
theorem C3_density_matrix_a_raises :
    density_matrix_a [(1, 0, 1)] [(0, 0)] 1 0 0 =
      Except.error "TypeError: category must be a Warning subclass" ∧
    (rho_b_pbasis [(1, 0, 1)] [(0, 0)] 1 0 0).2 = true := by
  have htrA : traceRe (density_matrix_a_mat [(1, 0, 1)] [(0, 0)] 1 0)
      (sum_ncr 0 (0 + 1)) = 0 := by
    norm_num [traceRe, density_matrix_a_mat, accumPairs, pairList, idxA,
      sum_ncr, ncr, vdotC, mulC, conjC, List.range_succ]
  have htrB : traceRe (rho_b_mat [(1, 0, 1)] [(0, 0)] 1 0 0)
      (sum_ncr 0 (0 + 1)) = 0 := by
    norm_num [traceRe, rho_b_mat, accumPairs, pairList, idxB,
      sum_ncr, ncr, vdotC, mulC, conjC, List.range_succ]
  constructor
  · simp only [density_matrix_a]
    rw [htrA, if_pos (by norm_num)]
  · simp only [rho_b_pbasis]
    rw [htrB, decide_eq_true_eq]
    norm_num

/-! ### Summation form of the accumulation loops -/

theorem list_range_map_sum {M : Type} [AddCommMonoid M] (n : ℕ)
    (f : ℕ → M) :
    ((List.range n).map f).sum = ∑ x ∈ Finset.range n, f x := by
  induction n with
  | zero => simp
  | succ m ih =>
    rw [List.range_succ, Finset.sum_range_succ, List.map_append,
      List.sum_append, ih]
    simp

theorem list_sum_filter_map {α : Type} {M : Type} [AddCommMonoid M]
    (q : α → Bool) (f : α → M) :
    ∀ l : List α, ((l.filter q).map f).sum =
      (l.map (fun x => if q x then f x else 0)).sum := by
  intro l
  induction l with
  | nil => rfl
  | cons x l ih =>
    rw [List.filter_cons, List.map_cons, List.sum_cons]
    by_cases h : q x
    · rw [if_pos h, if_pos h, List.map_cons, List.sum_cons, ih]
    · rw [if_neg h, if_neg h, ih, zero_add]

theorem list_sum_flatMap {α : Type} {M : Type} [AddCommMonoid M]
    (g : α → List M) :
    ∀ l : List α, (l.flatMap g).sum = (l.map (fun a => (g a).sum)).sum := by
  intro l
  induction l with
  | nil => rfl
  | cons a l ih =>
    rw [List.flatMap_cons, List.sum_append, ih, List.map_cons,
      List.sum_cons]

/-- Summing a function over the row-major pair traversal is a double sum
over the index ranges. -/
theorem sum_pairList (nos : ℕ) (F : ℕ × ℕ → ℚ × ℚ) :
    ((pairList nos).map F).sum =
      ∑ i ∈ Finset.range nos, ∑ j ∈ Finset.range nos, F (i, j) := by
  rw [pairList, List.map_flatMap, list_sum_flatMap, list_range_map_sum]
  refine Finset.sum_congr rfl ?_
  intro i _
  rw [List.map_map, list_range_map_sum]
  rfl

theorem accum_foldl_apply (cond : ℕ → ℕ → Bool) (cell : ℕ → ℕ → ℕ × ℕ)
    (term : ℕ → ℕ → ℚ × ℚ) :
    ∀ (ps : List (ℕ × ℕ)) (M : ℕ → ℕ → ℚ × ℚ) (m n : ℕ),
    (ps.foldl (fun M p =>
      if cond p.1 p.2 then
        fun m n =>
          if m = (cell p.1 p.2).1 ∧ n = (cell p.1 p.2).2 then
            M m n + term p.1 p.2
          else M m n
      else M) M) m n =
    M m n + ((ps.filter (fun p => cond p.1 p.2 &&
      decide (m = (cell p.1 p.2).1) && decide (n = (cell p.1 p.2).2))).map
        (fun p => term p.1 p.2)).sum := by
  intro ps
  induction ps with
  | nil => intro M m n; simp
  | cons p ps ih =>
    intro M m n
    rw [List.foldl_cons, ih, List.filter_cons]
    by_cases hc : cond p.1 p.2
    · by_cases hm : m = (cell p.1 p.2).1 ∧ n = (cell p.1 p.2).2
      · simp only [if_pos hc, if_pos hm]
        rw [if_pos (show (cond p.1 p.2 && decide (m = (cell p.1 p.2).1)
            && decide (n = (cell p.1 p.2).2)) = true by
          simp [hc, hm.1, hm.2]), List.map_cons, List.sum_cons]
        rw [add_assoc]
      · simp only [if_pos hc, if_neg hm]
        rw [if_neg (show ¬ (cond p.1 p.2 && decide (m = (cell p.1 p.2).1)
            && decide (n = (cell p.1 p.2).2)) = true by
          simp only [Bool.and_eq_true, decide_eq_true_eq]
          tauto)]
    · simp only [if_neg hc]
      rw [if_neg (show ¬ (cond p.1 p.2 && decide (m = (cell p.1 p.2).1)
          && decide (n = (cell p.1 p.2).2)) = true by
        simp [hc])]

/-- The accumulated matrix as a double sum over the state indices. -/
theorem accumPairs_apply (cond : ℕ → ℕ → Bool) (cell : ℕ → ℕ → ℕ × ℕ)
    (term : ℕ → ℕ → ℚ × ℚ) (nos m n : ℕ) :
    accumPairs cond cell term (pairList nos) m n =
      ∑ i ∈ Finset.range nos, ∑ j ∈ Finset.range nos,
        (if cond i j = true ∧ m = (cell i j).1 ∧ n = (cell i j).2
          then term i j else 0) := by
  rw [accumPairs, accum_foldl_apply, zero_add, list_sum_filter_map,
    sum_pairList]
  refine Finset.sum_congr rfl ?_
  intro i _
  refine Finset.sum_congr rfl ?_
  intro j _
  by_cases hc : cond i j = true ∧ m = (cell i j).1 ∧ n = (cell i j).2
  · rw [if_pos (show (cond i j && decide (m = (cell i j).1)
        && decide (n = (cell i j).2)) = true by
      simp [hc.1, hc.2.1, hc.2.2]), if_pos hc]
  · rw [if_neg (show ¬ (cond i j && decide (m = (cell i j).1)
        && decide (n = (cell i j).2)) = true by
      simp only [Bool.and_eq_true, decide_eq_true_eq]
      tauto), if_neg hc]

theorem conjC_add (x y : ℚ × ℚ) : conjC (x + y) = conjC x + conjC y := by
  simp [conjC, Prod.ext_iff]
  ring

theorem conjC_sum {ι : Type} (s : Finset ι) (f : ι → ℚ × ℚ) :
    conjC (∑ x ∈ s, f x) = ∑ x ∈ s, conjC (f x) := by
  refine Finset.cons_induction ?_ ?_ s
  · simp [conjC]
  · intro a s ha ih
    rw [Finset.sum_cons, Finset.sum_cons, conjC_add, ih]

theorem conjC_zero : conjC 0 = 0 := by
  simp [conjC]

theorem conjC_vdotC (x y : ℚ × ℚ) :
    conjC (vdotC x y) = vdotC y x := by
  simp only [conjC, vdotC, mulC, Prod.ext_iff]
  constructor <;> ring

/-- Hermiticity of the accumulated matrix: the match condition is
symmetric, both cells come from one index map, and conjugating the term
swaps its arguments. -/
theorem accum_hermitian (cond : ℕ → ℕ → Bool) (idx : ℕ → ℕ)
    (v : List (ℚ × ℚ)) (nos : ℕ)
    (hsym : ∀ i j, cond i j = cond j i) (m n : ℕ) :
    conjC (accumPairs cond (fun i j => (idx i, idx j))
      (fun i j => vdotC (v.getD j (0, 0)) (v.getD i (0, 0)))
      (pairList nos) m n) =
    accumPairs cond (fun i j => (idx i, idx j))
      (fun i j => vdotC (v.getD j (0, 0)) (v.getD i (0, 0)))
      (pairList nos) n m := by
  rw [accumPairs_apply, accumPairs_apply]
  simp only [conjC_sum, apply_ite conjC, conjC_vdotC, conjC_zero]
  rw [Finset.sum_comm]
  refine Finset.sum_congr rfl ?_
  intro y _
  refine Finset.sum_congr rfl ?_
  intro x _
  refine if_congr ?_ rfl rfl
  rw [hsym x y]
  tauto

/-- The real trace of an accumulated density matrix: when the label match
is reflexive, the indices stay inside the allocated dimension, and
matching states with equal indices coincide, the trace is the sum of the
squared moduli of the coefficients. -/
theorem accum_traceRe (cond : ℕ → ℕ → Bool) (idx : ℕ → ℕ)
    (v : List (ℚ × ℚ)) (nos dim : ℕ)
    (hrefl : ∀ i, i < nos → cond i i = true)
    (hbound : ∀ i, i < nos → idx i < dim)
    (hinj : ∀ i j, i < nos → j < nos → cond i j = true →
      idx i = idx j → i = j) :
    traceRe (accumPairs cond (fun i j => (idx i, idx j))
      (fun i j => vdotC (v.getD j (0, 0)) (v.getD i (0, 0)))
      (pairList nos)) dim =
    ∑ i ∈ Finset.range nos,
      ((v.getD i (0, 0)).1 ^ 2 + (v.getD i (0, 0)).2 ^ 2) := by
  rw [traceRe, list_range_map_sum]
  have h1 : ∀ m ∈ Finset.range dim,
      (accumPairs cond (fun i j => (idx i, idx j))
        (fun i j => vdotC (v.getD j (0, 0)) (v.getD i (0, 0)))
        (pairList nos) m m).1 =
      ∑ i ∈ Finset.range nos, ∑ j ∈ Finset.range nos,
        (if cond i j = true ∧ m = idx i ∧ m = idx j
          then (vdotC (v.getD j (0, 0)) (v.getD i (0, 0))).1 else 0) := by
    intro m _
    rw [accumPairs_apply, Prod.fst_sum]
    refine Finset.sum_congr rfl ?_
    intro i _
    rw [Prod.fst_sum]
    refine Finset.sum_congr rfl ?_
    intro j _
    rw [apply_ite Prod.fst]
    rfl
  rw [Finset.sum_congr rfl h1, Finset.sum_comm]
  refine Finset.sum_congr rfl ?_
  intro i hi
  have hilt : i < nos := Finset.mem_range.mp hi
  rw [Finset.sum_comm]
  have h2 : ∀ j ∈ Finset.range nos,
      (∑ m ∈ Finset.range dim,
        if cond i j = true ∧ m = idx i ∧ m = idx j
          then (vdotC (v.getD j (0, 0)) (v.getD i (0, 0))).1 else 0) =
      (if j = i then
        (vdotC (v.getD i (0, 0)) (v.getD i (0, 0))).1 else 0) := by
    intro j hj
    have hjlt : j < nos := Finset.mem_range.mp hj
    by_cases hij : j = i
    · rw [if_pos hij, hij]
      have h3 : ∀ m ∈ Finset.range dim,
          (if cond i i = true ∧ m = idx i ∧ m = idx i
            then (vdotC (v.getD i (0, 0)) (v.getD i (0, 0))).1 else 0) =
          (if m = idx i then
            (vdotC (v.getD i (0, 0)) (v.getD i (0, 0))).1 else 0) := by
        intro m _
        refine if_congr ?_ rfl rfl
        constructor
        · rintro ⟨_, h, _⟩
          exact h
        · intro h
          exact ⟨hrefl i hilt, h, h⟩
      rw [Finset.sum_congr rfl h3,
        Finset.sum_ite_eq' (Finset.range dim) (idx i),
        if_pos (Finset.mem_range.mpr (hbound i hilt))]
    · rw [if_neg hij]
      refine Finset.sum_eq_zero ?_
      intro m _
      rw [if_neg]
      rintro ⟨hcond, hmi, hmj⟩
      exact hij (hinj i j hilt hjlt hcond (hmi.symm.trans hmj)).symm
  rw [Finset.sum_congr rfl h2, Finset.sum_ite_eq' (Finset.range nos) i,
    if_pos hi]
  simp only [vdotC, mulC, conjC]
  ring

theorem filter_count_take_mono {α : Type} (L : List α) (q : α → Bool)
    {a b : ℕ} (h : a ≤ b) :
    ((L.take a).filter q).length ≤ ((L.take b).filter q).length := by
  rw [show b = a + (b - a) by omega, List.take_add, List.filter_append,
    List.length_append]
  exact Nat.le_add_right _ _

theorem filter_count_take_succ (L : List (List ℤ)) (q : List ℤ → Bool)
    {g : ℕ} (hg : g < L.length) (hq : q (L.getD g []) = true) :
    ((L.take (g + 1)).filter q).length =
      ((L.take g).filter q).length + 1 := by
  rw [List.take_succ, List.getElem?_eq_getElem hg, List.filter_append,
    List.length_append]
  rw [List.getD_eq_getElem _ _ hg] at hq
  simp [hq]

theorem filter_count_take_lt (L : List (List ℤ)) (q : List ℤ → Bool)
    {g g' : ℕ} (hgg : g < g') (hg' : g' < L.length)
    (hq : q (L.getD g' []) = true) :
    ((L.take (g + 1)).filter q).length <
      ((L.take (g' + 1)).filter q).length := by
  have h1 := filter_count_take_succ L q hg' hq
  have h2 := filter_count_take_mono L q (show g + 1 ≤ g' by omega)
  omega

/-- Counter bounds and injectivity of the relabel table of the complete
joint state space over `lat_a ++ B`. -/
theorem complete_label_props (lat_a B : List ℤ) (nop : ℕ)
    (hA : lat_a.Nodup) (hdisj : ∀ x ∈ B, ¬ x ∈ lat_a) :
    (∀ i, i < (combos nop (lat_a ++ B)).length →
      ∀ r, r = (relabel (combos nop (lat_a ++ B)) nop B.length
        lat_a).getD i (0, 0, 0) →
      1 ≤ r.1 ∧ r.1 ≤ Nat.choose lat_a.length r.2.1 ∧
      1 ≤ r.2.2 ∧ r.2.2 ≤ ncr B.length (nop - r.2.1) ∧
      r.2.1 ≤ nop ∧ r.2.1 ≤ lat_a.length ∧ nop - r.2.1 ≤ B.length) ∧
    (∀ i j, i < (combos nop (lat_a ++ B)).length →
      j < (combos nop (lat_a ++ B)).length →
      (relabel (combos nop (lat_a ++ B)) nop B.length lat_a).getD i
        (0, 0, 0) =
      (relabel (combos nop (lat_a ++ B)) nop B.length lat_a).getD j
        (0, 0, 0) → i = j) := by
  have haps : ∀ P ∈ aparts nop lat_a B.length,
      (∀ x ∈ P, x ∈ lat_a) ∧ nop - P.length ≤ B.length :=
    fun P hP => ⟨fun x hx => (aparts_mem hP).1.subset hx,
      (aparts_mem hP).2.2⟩
  have hnd := aparts_nodup nop B.length hA
  have hE := combos_append B nop lat_a
  constructor
  · intro i hi r hr
    rw [hE] at hi hr
    obtain ⟨g, t, hg, ht, heq, hrec⟩ := grouped_label lat_a B nop hdisj
      (aparts nop lat_a B.length) hnd haps i hi
    rw [hrec] at hr
    have hPmem : (aparts nop lat_a B.length).getD g [] ∈
        aparts nop lat_a B.length := by
      rw [List.getD_eq_getElem _ _ hg]
      exact List.getElem_mem hg
    have hap := aparts_mem hPmem
    have hcnt1 : ((((aparts nop lat_a B.length).take (g + 1)).filter
        (fun c => c.length =
          ((aparts nop lat_a B.length).getD g []).length)).length) =
        ((((aparts nop lat_a B.length).take g).filter
          (fun c => c.length =
            ((aparts nop lat_a B.length).getD g []).length)).length) + 1 :=
      filter_count_take_succ _ _ hg (by simp)
    have hcnt2 : ((((aparts nop lat_a B.length).take (g + 1)).filter
        (fun c => c.length =
          ((aparts nop lat_a B.length).getD g []).length)).length) ≤
        Nat.choose lat_a.length
          ((aparts nop lat_a B.length).getD g []).length :=
      sublists_class_card_le lat_a hA _
        (hnd.sublist (List.take_sublist _ _))
        (fun c hc => (aparts_mem (List.take_subset _ _ hc)).1) _
    subst hr
    dsimp only
    refine ⟨by omega, hcnt2, by omega, by omega, hap.2.1,
      hap.1.length_le, hap.2.2⟩
  · intro i j hi hj hreq
    rw [hE] at hi hj hreq
    obtain ⟨g₁, t₁, hg₁, ht₁, heq₁, hrec₁⟩ := grouped_label lat_a B nop
      hdisj (aparts nop lat_a B.length) hnd haps i hi
    obtain ⟨g₂, t₂, hg₂, ht₂, heq₂, hrec₂⟩ := grouped_label lat_a B nop
      hdisj (aparts nop lat_a B.length) hnd haps j hj
    rw [hrec₁, hrec₂] at hreq
    have hcomp := hreq
    rw [Prod.ext_iff] at hcomp
    obtain ⟨hcnt, hrest⟩ := hcomp
    rw [Prod.ext_iff] at hrest
    obtain ⟨hn, htb⟩ := hrest
    simp only at hcnt hn htb
    rcases Nat.lt_trichotomy g₁ g₂ with hlt | heqg | hgt
    · exfalso
      have hq2 : (fun c => decide (c.length =
          ((aparts nop lat_a B.length).getD g₁ []).length))
          ((aparts nop lat_a B.length).getD g₂ []) = true := by
        simp only [decide_eq_true_eq]
        exact hn.symm
      have := filter_count_take_lt (aparts nop lat_a B.length)
        (fun c => decide (c.length =
          ((aparts nop lat_a B.length).getD g₁ []).length)) hlt hg₂ hq2
      rw [show ((aparts nop lat_a B.length).getD g₂ []).length =
        ((aparts nop lat_a B.length).getD g₁ []).length from hn.symm]
        at hcnt
      omega
    · subst heqg
      omega
    · exfalso
      have hq1 : (fun c => decide (c.length =
          ((aparts nop lat_a B.length).getD g₂ []).length))
          ((aparts nop lat_a B.length).getD g₁ []) = true := by
        simp only [decide_eq_true_eq]
        exact hn
      have := filter_count_take_lt (aparts nop lat_a B.length)
        (fun c => decide (c.length =
          ((aparts nop lat_a B.length).getD g₂ []).length)) hgt hg₁ hq1
      rw [show ((aparts nop lat_a B.length).getD g₁ []).length =
        ((aparts nop lat_a B.length).getD g₂ []).length from hn] at hcnt
      omega


theorem sum_ncr_eq {m k : ℕ} (h : k ≤ m + 1) :
    sum_ncr m k = ∑ r ∈ Finset.range k, Nat.choose m r := by
  rw [sum_ncr, list_range_map_sum]
  refine Finset.sum_congr rfl ?_
  intro r hr
  exact ncr_eq_choose (by
    have := Finset.mem_range.mp hr
    omega)

/-- C6 (holds with the amendment that sub-lattice A's labels precede
sub-lattice B's in the joint lattice): for the complete `nop`-particle
state space over `lat_a ++ lat_b` and any unit-norm coefficient vector,
the matrix returned by `rho_b_pbasis` and the matrix accumulated by
`density_matrix_a` are Hermitian, their real traces are exactly `1`
(so within the `0.1` tolerance; the `rho_b_pbasis` warning flag stays
off and `density_matrix_a` returns its matrix), and the allocated
dimensions are the sums `Σ_{k=0}^{nop} C(sub-lattice size, k)`. -/
theorem C6_reduced_density_matrices (lat_a lat_b : List ℤ) (nop : ℕ)
    (e_vec : List (ℚ × ℚ))
    (hA : lat_a.Nodup) (hdisj : ∀ x ∈ lat_b, ¬ x ∈ lat_a)
    (hna : nop ≤ lat_a.length) (hnb : nop ≤ lat_b.length)
    (e_states : List (List ℤ)) (nos : ℕ) (label : List (ℕ × ℕ × ℕ))
    (hes : e_states = (position_states (lat_a ++ lat_b) nop none).1)
    (hnos : nos = (position_states (lat_a ++ lat_b) nop none).2)
    (hlabel : label = relabel e_states nop lat_b.length lat_a)
    (hnorm : ∑ i ∈ Finset.range nos,
      ((e_vec.getD i (0, 0)).1 ^ 2 + (e_vec.getD i (0, 0)).2 ^ 2) = 1) :
    (∀ m n, conjC ((rho_b_pbasis label e_vec nos lat_b.length nop).1 m n) =
      (rho_b_pbasis label e_vec nos lat_b.length nop).1 n m) ∧
    traceRe (rho_b_pbasis label e_vec nos lat_b.length nop).1
      (sum_ncr lat_b.length (nop + 1)) = 1 ∧
    (rho_b_pbasis label e_vec nos lat_b.length nop).2 = false ∧
    (∀ m n, conjC (density_matrix_a_mat label e_vec nos lat_a.length m n) =
      density_matrix_a_mat label e_vec nos lat_a.length n m) ∧
    traceRe (density_matrix_a_mat label e_vec nos lat_a.length)
      (sum_ncr lat_a.length (nop + 1)) = 1 ∧
    density_matrix_a label e_vec nos lat_a.length nop =
      Except.ok (density_matrix_a_mat label e_vec nos lat_a.length) ∧
    sum_ncr lat_b.length (nop + 1) =
      ∑ k ∈ Finset.range (nop + 1), Nat.choose lat_b.length k ∧
    sum_ncr lat_a.length (nop + 1) =
      ∑ k ∈ Finset.range (nop + 1), Nat.choose lat_a.length k := by
  subst hlabel hes hnos
  have hE : (position_states (lat_a ++ lat_b) nop none).1 =
      combos nop (lat_a ++ lat_b) := rfl
  have hN : (position_states (lat_a ++ lat_b) nop none).2 =
      (combos nop (lat_a ++ lat_b)).length := rfl
  rw [hN] at hnorm
  rw [hE, hN]
  obtain ⟨hb, hinj⟩ := complete_label_props lat_a lat_b nop hA hdisj
  -- the B-side condition and index map
  have hsymB : ∀ i j,
      (decide (((relabel (combos nop (lat_a ++ lat_b)) nop lat_b.length
          lat_a).getD i (0, 0, 0)).2.1 =
        ((relabel (combos nop (lat_a ++ lat_b)) nop lat_b.length
          lat_a).getD j (0, 0, 0)).2.1)
      && decide (((relabel (combos nop (lat_a ++ lat_b)) nop lat_b.length
          lat_a).getD i (0, 0, 0)).1 =
        ((relabel (combos nop (lat_a ++ lat_b)) nop lat_b.length
          lat_a).getD j (0, 0, 0)).1)) =
      (decide (((relabel (combos nop (lat_a ++ lat_b)) nop lat_b.length
          lat_a).getD j (0, 0, 0)).2.1 =
        ((relabel (combos nop (lat_a ++ lat_b)) nop lat_b.length
          lat_a).getD i (0, 0, 0)).2.1)
      && decide (((relabel (combos nop (lat_a ++ lat_b)) nop lat_b.length
          lat_a).getD j (0, 0, 0)).1 =
        ((relabel (combos nop (lat_a ++ lat_b)) nop lat_b.length
          lat_a).getD i (0, 0, 0)).1)) := by
    intro i j
    congr 1
    · exact decide_eq_decide.mpr eq_comm
    · exact decide_eq_decide.mpr eq_comm
  have hboundB : ∀ i, i < (combos nop (lat_a ++ lat_b)).length →
      idxB lat_b.length nop
        ((relabel (combos nop (lat_a ++ lat_b)) nop lat_b.length
          lat_a).getD i (0, 0, 0)) < sum_ncr lat_b.length (nop + 1) := by
    intro i hi
    obtain ⟨h1, h2, h3, h4, h5, h6, h7⟩ := hb i hi _ rfl
    simp only [idxB]
    have hs1 := sum_ncr_succ lat_b.length
      (nop - ((relabel (combos nop (lat_a ++ lat_b)) nop lat_b.length
        lat_a).getD i (0, 0, 0)).2.1)
    have hs2 := sum_ncr_mono lat_b.length
      (show nop - ((relabel (combos nop (lat_a ++ lat_b)) nop lat_b.length
        lat_a).getD i (0, 0, 0)).2.1 + 1 ≤ nop + 1 by omega)
    omega
  have hinjB : ∀ i j, i < (combos nop (lat_a ++ lat_b)).length →
      j < (combos nop (lat_a ++ lat_b)).length →
      (decide (((relabel (combos nop (lat_a ++ lat_b)) nop lat_b.length
          lat_a).getD i (0, 0, 0)).2.1 =
        ((relabel (combos nop (lat_a ++ lat_b)) nop lat_b.length
          lat_a).getD j (0, 0, 0)).2.1)
      && decide (((relabel (combos nop (lat_a ++ lat_b)) nop lat_b.length
          lat_a).getD i (0, 0, 0)).1 =
        ((relabel (combos nop (lat_a ++ lat_b)) nop lat_b.length
          lat_a).getD j (0, 0, 0)).1)) = true →
      idxB lat_b.length nop
        ((relabel (combos nop (lat_a ++ lat_b)) nop lat_b.length
          lat_a).getD i (0, 0, 0)) =
      idxB lat_b.length nop
        ((relabel (combos nop (lat_a ++ lat_b)) nop lat_b.length
          lat_a).getD j (0, 0, 0)) → i = j := by
    intro i j hi hj hc hidx
    obtain ⟨hi1, hi2, hi3, hi4, hi5, hi6, hi7⟩ := hb i hi _ rfl
    obtain ⟨hj1, hj2, hj3, hj4, hj5, hj6, hj7⟩ := hb j hj _ rfl
    simp only [Bool.and_eq_true, decide_eq_true_eq] at hc
    obtain ⟨hn, ha⟩ := hc
    simp only [idxB] at hidx
    rw [hn] at hidx
    have hbb : ((relabel (combos nop (lat_a ++ lat_b)) nop lat_b.length
        lat_a).getD i (0, 0, 0)).2.2 =
        ((relabel (combos nop (lat_a ++ lat_b)) nop lat_b.length
          lat_a).getD j (0, 0, 0)).2.2 := by omega
    refine hinj i j hi hj ?_
    rw [Prod.ext_iff, Prod.ext_iff]
    exact ⟨ha, hn, hbb⟩
  have htrB : traceRe (rho_b_mat
      (relabel (combos nop (lat_a ++ lat_b)) nop lat_b.length lat_a)
      e_vec (combos nop (lat_a ++ lat_b)).length lat_b.length nop)
      (sum_ncr lat_b.length (nop + 1)) = 1 := by
    have := accum_traceRe
      (fun i j =>
        decide (((relabel (combos nop (lat_a ++ lat_b)) nop lat_b.length
            lat_a).getD i (0, 0, 0)).2.1 =
          ((relabel (combos nop (lat_a ++ lat_b)) nop lat_b.length
            lat_a).getD j (0, 0, 0)).2.1)
        && decide (((relabel (combos nop (lat_a ++ lat_b)) nop
            lat_b.length lat_a).getD i (0, 0, 0)).1 =
          ((relabel (combos nop (lat_a ++ lat_b)) nop lat_b.length
            lat_a).getD j (0, 0, 0)).1))
      (fun i => idxB lat_b.length nop
        ((relabel (combos nop (lat_a ++ lat_b)) nop lat_b.length
          lat_a).getD i (0, 0, 0)))
      e_vec (combos nop (lat_a ++ lat_b)).length
      (sum_ncr lat_b.length (nop + 1))
      (fun i _ => by simp) hboundB hinjB
    exact this.trans hnorm
  -- the A-side condition and index map
  have hboundA : ∀ i, i < (combos nop (lat_a ++ lat_b)).length →
      idxA lat_a.length
        ((relabel (combos nop (lat_a ++ lat_b)) nop lat_b.length
          lat_a).getD i (0, 0, 0)) < sum_ncr lat_a.length (nop + 1) := by
    intro i hi
    obtain ⟨h1, h2, h3, h4, h5, h6, h7⟩ := hb i hi _ rfl
    simp only [idxA]
    rw [← ncr_eq_choose h6] at h2
    have hs1 := sum_ncr_succ lat_a.length
      (((relabel (combos nop (lat_a ++ lat_b)) nop lat_b.length
        lat_a).getD i (0, 0, 0)).2.1)
    have hs2 := sum_ncr_mono lat_a.length
      (show ((relabel (combos nop (lat_a ++ lat_b)) nop lat_b.length
        lat_a).getD i (0, 0, 0)).2.1 + 1 ≤ nop + 1 by omega)
    omega
  have hinjA : ∀ i j, i < (combos nop (lat_a ++ lat_b)).length →
      j < (combos nop (lat_a ++ lat_b)).length →
      (decide (((relabel (combos nop (lat_a ++ lat_b)) nop lat_b.length
          lat_a).getD i (0, 0, 0)).2.1 =
        ((relabel (combos nop (lat_a ++ lat_b)) nop lat_b.length
          lat_a).getD j (0, 0, 0)).2.1)
      && decide (((relabel (combos nop (lat_a ++ lat_b)) nop lat_b.length
          lat_a).getD i (0, 0, 0)).2.2 =
        ((relabel (combos nop (lat_a ++ lat_b)) nop lat_b.length
          lat_a).getD j (0, 0, 0)).2.2)) = true →
      idxA lat_a.length
        ((relabel (combos nop (lat_a ++ lat_b)) nop lat_b.length
          lat_a).getD i (0, 0, 0)) =
      idxA lat_a.length
        ((relabel (combos nop (lat_a ++ lat_b)) nop lat_b.length
          lat_a).getD j (0, 0, 0)) → i = j := by
    intro i j hi hj hc hidx
    obtain ⟨hi1, hi2, hi3, hi4, hi5, hi6, hi7⟩ := hb i hi _ rfl
    obtain ⟨hj1, hj2, hj3, hj4, hj5, hj6, hj7⟩ := hb j hj _ rfl
    simp only [Bool.and_eq_true, decide_eq_true_eq] at hc
    obtain ⟨hn, hbb⟩ := hc
    simp only [idxA] at hidx
    rw [hn] at hidx
    have ha : ((relabel (combos nop (lat_a ++ lat_b)) nop lat_b.length
        lat_a).getD i (0, 0, 0)).1 =
        ((relabel (combos nop (lat_a ++ lat_b)) nop lat_b.length
          lat_a).getD j (0, 0, 0)).1 := by omega
    refine hinj i j hi hj ?_
    rw [Prod.ext_iff, Prod.ext_iff]
    exact ⟨ha, hn, hbb⟩
  have htrA : traceRe (density_matrix_a_mat
      (relabel (combos nop (lat_a ++ lat_b)) nop lat_b.length lat_a)
      e_vec (combos nop (lat_a ++ lat_b)).length lat_a.length)
      (sum_ncr lat_a.length (nop + 1)) = 1 := by
    have := accum_traceRe
      (fun i j =>
        decide (((relabel (combos nop (lat_a ++ lat_b)) nop lat_b.length
            lat_a).getD i (0, 0, 0)).2.1 =
          ((relabel (combos nop (lat_a ++ lat_b)) nop lat_b.length
            lat_a).getD j (0, 0, 0)).2.1)
        && decide (((relabel (combos nop (lat_a ++ lat_b)) nop
            lat_b.length lat_a).getD i (0, 0, 0)).2.2 =
          ((relabel (combos nop (lat_a ++ lat_b)) nop lat_b.length
            lat_a).getD j (0, 0, 0)).2.2))
      (fun i => idxA lat_a.length
        ((relabel (combos nop (lat_a ++ lat_b)) nop lat_b.length
          lat_a).getD i (0, 0, 0)))
      e_vec (combos nop (lat_a ++ lat_b)).length
      (sum_ncr lat_a.length (nop + 1))
      (fun i _ => by simp) hboundA hinjA
    exact this.trans hnorm
  refine ⟨?_, htrB, ?_, ?_, htrA, ?_, ?_, ?_⟩
  · intro m n
    exact accum_hermitian
      (fun i j =>
        decide (((relabel (combos nop (lat_a ++ lat_b)) nop lat_b.length
            lat_a).getD i (0, 0, 0)).2.1 =
          ((relabel (combos nop (lat_a ++ lat_b)) nop lat_b.length
            lat_a).getD j (0, 0, 0)).2.1)
        && decide (((relabel (combos nop (lat_a ++ lat_b)) nop
            lat_b.length lat_a).getD i (0, 0, 0)).1 =
          ((relabel (combos nop (lat_a ++ lat_b)) nop lat_b.length
            lat_a).getD j (0, 0, 0)).1))
      (fun i => idxB lat_b.length nop
        ((relabel (combos nop (lat_a ++ lat_b)) nop lat_b.length
          lat_a).getD i (0, 0, 0)))
      e_vec (combos nop (lat_a ++ lat_b)).length hsymB m n
  · simp only [rho_b_pbasis]
    rw [htrB]
    norm_num
  · intro m n
    exact accum_hermitian
      (fun i j =>
        decide (((relabel (combos nop (lat_a ++ lat_b)) nop lat_b.length
            lat_a).getD i (0, 0, 0)).2.1 =
          ((relabel (combos nop (lat_a ++ lat_b)) nop lat_b.length
            lat_a).getD j (0, 0, 0)).2.1)
        && decide (((relabel (combos nop (lat_a ++ lat_b)) nop
            lat_b.length lat_a).getD i (0, 0, 0)).2.2 =
          ((relabel (combos nop (lat_a ++ lat_b)) nop lat_b.length
            lat_a).getD j (0, 0, 0)).2.2))
      (fun i => idxA lat_a.length
        ((relabel (combos nop (lat_a ++ lat_b)) nop lat_b.length
          lat_a).getD i (0, 0, 0)))
      e_vec (combos nop (lat_a ++ lat_b)).length
      (by
        intro i j
        dsimp only
        congr 1
        · exact decide_eq_decide.mpr eq_comm
        · exact decide_eq_decide.mpr eq_comm) m n
  · simp only [density_matrix_a]
    rw [htrA]
    norm_num
  · exact sum_ncr_eq (by omega)
  · exact sum_ncr_eq (by omega)

/-- Witness for C6: the 1-particle system with `lat_a = [1]`,
`lat_b = [2]` and coefficient vector `[(1, 0), (0, 0)]`. -/
theorem C6_reduced_density_matrices_witness :
    (∑ i ∈ Finset.range ((position_states ([(1 : ℤ)] ++ [2]) 1 none).2),
      ((([((1 : ℚ), (0 : ℚ)), (0, 0)].getD i (0, 0)).1 ^ 2 +
        ([((1 : ℚ), (0 : ℚ)), (0, 0)].getD i (0, 0)).2 ^ 2))) = 1 ∧
    traceRe (rho_b_pbasis
        (relabel (position_states ([(1 : ℤ)] ++ [2]) 1 none).1 1
          [(2 : ℤ)].length [1])
        [((1 : ℚ), (0 : ℚ)), (0, 0)]
        (position_states ([(1 : ℤ)] ++ [2]) 1 none).2 [(2 : ℤ)].length 1).1
      (sum_ncr [(2 : ℤ)].length (1 + 1)) = 1 := by
  have hnorm : ∑ i ∈ Finset.range
      ((position_states ([(1 : ℤ)] ++ [2]) 1 none).2),
      ((([((1 : ℚ), (0 : ℚ)), (0, 0)].getD i (0, 0)).1 ^ 2 +
        ([((1 : ℚ), (0 : ℚ)), (0, 0)].getD i (0, 0)).2 ^ 2)) = 1 := by
    norm_num [position_states, combos, Finset.sum_range_succ]
  refine ⟨hnorm, ?_⟩
  exact (C6_reduced_density_matrices [1] [2] 1 [((1 : ℚ), (0 : ℚ)), (0, 0)]
    (by decide)
    (by
      intro x hx h1
      simp only [List.mem_singleton] at hx h1
      omega)
    (by decide) (by decide) _ _ _ rfl rfl rfl hnorm).2.1

/-- C6 (counterexample to the claim as stated, without the amendment):
over the complete 2-particle state space of the lattice `[1, 2, 3, 4]`
with the interleaved sub-lattice A = `[2, 4]` (so B = `[1, 3]`,
`nol_b = 2`, `nos = 6`), `relabel` emits the record `(2, 1, 2)` for both
state 2 (`[1, 4]`) and state 5 (`[3, 4]`); for the unit-norm coefficient
vector supported on those two states, the real trace of the matrix
returned by `rho_b_pbasis` is `2`, not within `0.1` of `1`. -/
theorem C6_counterexample :
    (position_states [1, 2, 3, 4] 2 none).2 = 6 ∧
    (∑ i ∈ Finset.range 6,
      ((([(0, 0), (0, 0), (1/2, 1/2), (0, 0), (0, 0), (1/2, 1/2)] :
          List (ℚ × ℚ)).getD i (0, 0)).1 ^ 2 +
        (([(0, 0), (0, 0), (1/2, 1/2), (0, 0), (0, 0), (1/2, 1/2)] :
          List (ℚ × ℚ)).getD i (0, 0)).2 ^ 2)) = 1 ∧
    ¬ (|traceRe (rho_b_pbasis
          (relabel (position_states [1, 2, 3, 4] 2 none).1 2 2 [2, 4])
          [(0, 0), (0, 0), (1/2, 1/2), (0, 0), (0, 0), (1/2, 1/2)] 6 2 2).1
        (sum_ncr 2 (2 + 1)) - 1| ≤ 1 / 10) := by
  have hlab : relabel (position_states [1, 2, 3, 4] 2 none).1 2 2 [2, 4] =
      [(1, 1, 1), (1, 0, 1), (2, 1, 2), (2, 1, 1), (1, 2, 1), (2, 1, 2)] := by
    decide
  have htr : traceRe (rho_b_pbasis
      (relabel (position_states [1, 2, 3, 4] 2 none).1 2 2 [2, 4])
      [(0, 0), (0, 0), (1/2, 1/2), (0, 0), (0, 0), (1/2, 1/2)] 6 2 2).1
      (sum_ncr 2 (2 + 1)) = 2 := by
    rw [hlab]
    norm_num +decide [rho_b_pbasis, rho_b_mat, traceRe, accumPairs, pairList,
      idxB, sum_ncr, ncr, vdotC, mulC, conjC, List.range_succ,
      List.getD_cons_zero, List.getD_cons_succ, Nat.factorial,
      List.getElem_cons_zero, List.getElem_cons_succ, Prod.fst_zero,
      Prod.snd_zero]
    norm_num [show ([0, 0, (1/2, 1/2), 0, 0, (1/2, 1/2)] :
      List (ℚ × ℚ))[1] = 0 from rfl]
  refine ⟨by decide, ?_, ?_⟩
  · norm_num [Finset.sum_range_succ]
  · rw [htr]
    norm_num

end PyThermal
